import Mathlib

/-!
The launcher catalog (`src/launchermodel.cpp`).

A shallow embedding of `LauncherModel`: the ordered catalog `m_appItems`, the
entry filter and `Exec` normaliser inside `addApp`, `removeApp`, `move`,
`onRefreshed`, the message sequence posted by `refresh`, the search view
(`search`, `rowCount`, `data`) and `launch`.

Conventions of the embedding.

* A `QString` is the list of its characters.
* The object state is the record `LauncherModel`; every slot is a function from
  the old state to the new one.  Signals towards the view (`dataChanged`,
  `rowsInserted`, `layoutChanged`, ...) carry no state and are left out;
  `applicationLaunched` is recorded in the outcome of `launch`.
* `m_saveTimer` is kept as two fields: whether the timer is running, and how
  many times `QTimer::start` has been called on it.  A slot "restarts the
  deferred-save timer" exactly when it goes through `delaySave`, which raises
  that count by one.
* C++ `int` values are integers; the additions and the product in `move` are
  reduced to the 32-bit two's-complement range with `wrapInt`.
* Qt containers and algorithms (`QList::move`, `QString::simplified`,
  `QString::split`, `QString::contains`, `std::sort`) are embedded by their
  documented behaviour; a container access outside its bounds has no result.
-/

namespace Launcher

/-! ## Strings -/

/-- QString, as the sequence of its characters. -/
abbrev QString := List Char

/-- The double-quote character (code point 34). -/
def dquote : Char := Char.ofNat 34

/-- The percent sign (code point 37). -/
def percent : Char := Char.ofNat 37

/-- The line feed (code point 10), the one character the regular-expression dot does not match. -/
def newline : Char := Char.ofNat 10

/-- The space character (code point 32), the separator of `split(" ")`. -/
def space : Char := Char.ofNat 32

/-- The semicolon (code point 59), the separator of the `OnlyShowIn` list. -/
def semicolon : Char := Char.ofNat 59

/-- `QChar::isSpace`: space, the controls U+0009..U+000D, U+0085, U+00A0 and the
Unicode separator categories Zs, Zl and Zp. -/
def isSpace (c : Char) : Bool :=
  let u := c.toNat
  u == 0x20 || (0x09 ≤ u && u ≤ 0x0d) || u == 0x85 || u == 0xa0 || u == 0x1680 ||
    (0x2000 ≤ u && u ≤ 0x200a) || u == 0x2028 || u == 0x2029 || u == 0x202f ||
    u == 0x205f || u == 0x3000

/-- The UTF-16 code units of one character; `QString` comparison works on these. -/
def utf16 (c : Char) : List Nat :=
  let u := c.toNat
  if u < 0x10000 then [u]
  else [0xd800 + (u - 0x10000) / 0x400, 0xdc00 + (u - 0x10000) % 0x400]

/-- The code units of a string. -/
def codeUnits (s : QString) : List Nat := s.flatMap utf16

/-- `QString::operator<`: lexicographic comparison of the code units. -/
def qstringLt (a b : QString) : Bool := decide (codeUnits a < codeUnits b)

/-! ## Data model -/

/-- One application entry (`AppItem`). -/
structure AppItem where
  id : QString
  name : QString
  genericName : QString
  comment : QString
  iconName : QString
  args : List QString
deriving DecidableEq, Repr

/-- The view mode of the model. -/
inductive Mode where
  | NormalMode
  | SearchMode
deriving DecidableEq, Repr

/-- The state of a `LauncherModel` object. -/
structure LauncherModel where
  m_appItems : List AppItem
  m_searchItems : List AppItem
  m_mode : Mode
  m_needSort : Bool
  m_saveTimerActive : Bool
  m_saveTimerStarts : Nat
deriving DecidableEq, Repr

/-- The ids of a catalog, in catalog order. -/
def ids (items : List AppItem) : List QString := items.map AppItem.id

/-! ## The desktop-entry reader and the process environment -/

/-- Modelled from the spec: the desktop-entry reader `DesktopProperties`
(`desktopproperties.h` is not among the sources).  Section 4.1: the reader
yields "a mapping from key to string value for keys within that group, plus a
membership test"; a missing or unreadable file "yields an empty map". -/
structure DesktopProperties where
  entries : List (QString × QString)
deriving DecidableEq, Repr

/-- Modelled from the spec: the membership test of the reader (section 4.1),
with case-sensitive keys. -/
def DesktopProperties.contains (d : DesktopProperties) (key : QString) : Bool :=
  (d.entries.lookup key).isSome

/-- Modelled from the spec: `value(key).toString()` of the reader (section 4.1);
a key that is absent reads as the empty string. -/
def DesktopProperties.value (d : DesktopProperties) (key : QString) : QString :=
  (d.entries.lookup key).getD []

/-- Modelled from the spec: the boolean conversion of a value read by
`DesktopProperties` (section 4.1: "boolean conversion follows freedesktop rules
(true/false, case-insensitive)"). -/
def toBool (v : QString) : Bool :=
  v.map Char.toLower == "true".toList

/-- What the process environment contributes to `addApp`. -/
structure Env where
  /-- The bytes of `qgetenv("XDG_CURRENT_DESKTOP")`, empty when the variable is unset. -/
  xdgCurrentDesktop : QString
  /-- The result of `QLocale::system().name()`. -/
  localeName : QString
deriving DecidableEq, Repr

/-- `QByteArray::toUpper` on the letters a..z. -/
def toUpper (s : QString) : QString := s.map Char.toUpper

/-- `detectDesktopEnvironment` (launchermodel.cpp:36-44). -/
def detectDesktopEnvironment (env : Env) : QString :=
  if !env.xdgCurrentDesktop.isEmpty then toUpper env.xdgCurrentDesktop
  else "UNKNOWN".toList

/-! ## findById and the save timer -/

/-- The loop of `findById` from position `i` on, over the items not yet visited. -/
def findByIdFrom (id : QString) : List AppItem → Nat → Int
  | [], _ => -1
  | item :: rest, i => if item.id = id then (i : Int) else findByIdFrom id rest (i + 1)

/-- `LauncherModel::findById` (launchermodel.cpp:185-193). -/
def findById (m : LauncherModel) (id : QString) : Int :=
  findByIdFrom id m.m_appItems 0

/-- `LauncherModel::delaySave` (launchermodel.cpp:254-260): stop the timer when
it runs, then start it. -/
def delaySave (m : LauncherModel) : LauncherModel :=
  let stopped := if m.m_saveTimerActive then { m with m_saveTimerActive := false } else m
  { stopped with m_saveTimerActive := true, m_saveTimerStarts := stopped.m_saveTimerStarts + 1 }

/-! ## addApp: the entry filter and the normaliser -/

/-- The key `Terminal` of a desktop entry. -/
def keyTerminal : QString := "Terminal".toList

/-- The key `OnlyShowIn` of a desktop entry. -/
def keyOnlyShowIn : QString := "OnlyShowIn".toList

/-- The key `NoDisplay` of a desktop entry. -/
def keyNoDisplay : QString := "NoDisplay".toList

/-- The key `Hidden` of a desktop entry. -/
def keyHidden : QString := "Hidden".toList

/-- The key `Name` of a desktop entry. -/
def keyName : QString := "Name".toList

/-- The key `Comment` of a desktop entry. -/
def keyComment : QString := "Comment".toList

/-- The key `Icon` of a desktop entry. -/
def keyIcon : QString := "Icon".toList

/-- The key `Exec` of a desktop entry. -/
def keyExec : QString := "Exec".toList

/-- The three visibility guards of `addApp` (launchermodel.cpp:313-325), in the
order of the source: `Terminal`, `OnlyShowIn`, then `NoDisplay` or `Hidden`. -/
def entryHidden (env : Env) (desktop : DesktopProperties) : Bool :=
  if desktop.contains keyTerminal && toBool (desktop.value keyTerminal) then true
  else if desktop.contains keyOnlyShowIn &&
      !((desktop.value keyOnlyShowIn).splitOn semicolon).contains
        (detectDesktopEnvironment env) then true
  else if toBool (desktop.value keyNoDisplay) || toBool (desktop.value keyHidden) then
    true
  else false

/-- The display name (launchermodel.cpp:327-331): `Name[<locale>]`, or `Name`
when that is empty. -/
def appName (env : Env) (desktop : DesktopProperties) : QString :=
  let localized := desktop.value ("Name[".toList ++ env.localeName ++ "]".toList)
  if localized.isEmpty then desktop.value keyName else localized

/-- `appExec.remove(QRegularExpression("%."))` (launchermodel.cpp:333): every
match, found from left to right without overlap, is taken out.  The dot matches
any character but the line feed. -/
def removeFieldCodes : QString → QString
  | [] => []
  | [c] => [c]
  | c :: d :: rest =>
    if c = percent ∧ d ≠ newline then removeFieldCodes rest
    else c :: removeFieldCodes (d :: rest)

/-- `appExec.remove(QRegularExpression("^\""))` (launchermodel.cpp:334). -/
def removeLeadingQuote : QString → QString
  | [] => []
  | c :: rest => if c = dquote then rest else c :: rest

/-- `appExec.replace("\"", "")` (launchermodel.cpp:336). -/
def removeQuotes (s : QString) : QString := s.filter (fun c => c != dquote)

/-- `QString::simplified`: whitespace is removed from both ends and every
internal run of whitespace becomes one space. -/
def simplified (s : QString) : QString :=
  [space].intercalate ((s.splitOnP isSpace).filter (fun w => !w.isEmpty))

/-- The four normalisation steps applied to `Exec` (launchermodel.cpp:333-337). -/
def normalizeExec (exec : QString) : QString :=
  simplified (removeQuotes (removeLeadingQuote (removeFieldCodes exec)))

/-- `appExec.split(" ")` after the normalisation (launchermodel.cpp:346, 355). -/
def execArgs (exec : QString) : List QString :=
  (normalizeExec exec).splitOn space

/-- The assignments of the update branch (launchermodel.cpp:342-346). -/
def updateItem (env : Env) (desktop : DesktopProperties) (item : AppItem) : AppItem :=
  { item with
    name := appName env desktop
    genericName := desktop.value keyComment
    comment := desktop.value keyComment
    iconName := desktop.value keyIcon
    args := execArgs (desktop.value keyExec) }

/-- The item built by the insert branch (launchermodel.cpp:349-355). -/
def newItem (env : Env) (desktop : DesktopProperties) (fileName : QString) : AppItem :=
  { id := fileName
    name := appName env desktop
    genericName := desktop.value keyComment
    comment := desktop.value keyComment
    iconName := desktop.value keyIcon
    args := execArgs (desktop.value keyExec) }

/-- `LauncherModel::addApp` (launchermodel.cpp:307-365).  `desktop` is what
`DesktopProperties desktop(fileName, "Desktop Entry")` reads at the time of the
call.  The guard of the update branch is the one of the source,
`index >= 0 && index <= size`; `List.modify` leaves the list alone at an index
that is not a position of it. -/
def addApp (env : Env) (desktop : DesktopProperties) (fileName : QString)
    (m : LauncherModel) : LauncherModel :=
  let index := findById m fileName
  if entryHidden env desktop then m
  else if 0 ≤ index ∧ index ≤ (m.m_appItems.length : Int) then
    { m with m_appItems := m.m_appItems.modify (updateItem env desktop) index.toNat }
  else
    let m1 := { m with m_appItems := m.m_appItems ++ [newItem env desktop fileName] }
    if !m1.m_needSort then delaySave m1 else m1

/-! ## removeApp, move, onRefreshed, refresh -/

/-- `LauncherModel::removeApp` (launchermodel.cpp:367-378). -/
def removeApp (fileName : QString) (m : LauncherModel) : LauncherModel :=
  let index := findById m fileName
  if index < 0 then m
  else delaySave { m with m_appItems := m.m_appItems.eraseIdx index.toNat }

/-- A C++ `int` result: reduction to the 32-bit two's-complement range. -/
def wrapInt (x : Int) : Int := (x + 2147483648) % 4294967296 - 2147483648

/-- `QListData::move` for positions inside the list: the element at `src` is
saved, the block between the two positions is shifted by one place towards
`src`, and the saved element is stored at `dst`. -/
def listMove {α : Type} (l : List α) (src dst : Nat) : List α :=
  if src = dst then l
  else if src < dst then
    l.take src ++ (l.drop (src + 1)).take (dst - src) ++ (l.drop src).take 1 ++ l.drop (dst + 1)
  else
    l.take dst ++ (l.drop src).take 1 ++ (l.drop dst).take (src - dst) ++ l.drop (src + 1)

/-- `QList::move(int, int)`: both positions must be inside the list (the
`Q_ASSERT_X` of the container); otherwise there is no result. -/
def qlistMove {α : Type} (l : List α) (src dst : Int) : Option (List α) :=
  if 0 ≤ src ∧ src < (l.length : Int) ∧ 0 ≤ dst ∧ dst < (l.length : Int) then
    some (listMove l src.toNat dst.toNat)
  else none

/-- `LauncherModel::move` (launchermodel.cpp:225-243). -/
def move (from_ to_ page pageCount : Int) (m : LauncherModel) : Option LauncherModel :=
  if from_ = to_ then some m
  else
    let newFrom := wrapInt (from_ + wrapInt (page * pageCount))
    let newTo := wrapInt (to_ + wrapInt (page * pageCount))
    match qlistMove m.m_appItems newFrom newTo with
    | some items => some (delaySave { m with m_appItems := items })
    | none => none

/-- The order handed to `std::sort` in `onRefreshed`, read as "a may stand
before b": `b.name < a.name` does not hold. -/
def nameLe (a b : AppItem) : Prop := qstringLt b.name a.name = false

instance : DecidableRel nameLe := fun a b => by
  unfold nameLe
  infer_instance

/-- `LauncherModel::onRefreshed` (launchermodel.cpp:291-305).  `std::sort` is
embedded as an insertion sort on the comparison of the names.  `std::sort` leaves
the order among items with equal names open, where the insertion sort keeps
their order; only what holds of every sort (a permutation in non-decreasing
order) is used of it. -/
def onRefreshed (m : LauncherModel) : LauncherModel :=
  if !m.m_needSort then m
  else
    delaySave { m with m_needSort := false, m_appItems := m.m_appItems.insertionSort nameLe }

/-- The messages one run of `LauncherModel::refresh` (launchermodel.cpp:195-223)
posts to the model, applied in the order posted: `addApp` for every discovered
file, `removeApp` for every catalog item whose id is not among the discovered
files, then `refreshed`.  `fs` is what the reader finds at each path and
`allEntries` the files found by the directory iterator.  The ids without a
discovered file are read off the catalog the refresh starts from: `addApp` only
ever adds discovered paths, so the worker finds the same ids whether it reads
the catalog before or after its `addApp` messages are handled. -/
def refresh (env : Env) (fs : QString → DesktopProperties) (allEntries : List QString)
    (m : LauncherModel) : LauncherModel :=
  let added := allEntries.foldl (fun acc fileName => addApp env (fs fileName) fileName acc) m
  let gone := (ids m.m_appItems).filter (fun id => !allEntries.contains id)
  let removed := gone.foldl (fun acc fileName => removeApp fileName acc) added
  onRefreshed removed

/-! ## The constructor, search, rowCount and data -/

/-- The state set up by the constructor (launchermodel.cpp:46-58): normal mode,
the catalog read from the settings, and `m_needSort` set when that catalog is
empty.  The save timer has not been started. -/
def load (persisted : List AppItem) : LauncherModel :=
  { m_appItems := persisted
    m_searchItems := []
    m_mode := .NormalMode
    m_needSort := if persisted.isEmpty then true else false
    m_saveTimerActive := false
    m_saveTimerStarts := 0 }

/-- `QString::contains(key, Qt::CaseInsensitive)`: the case-folded key occurs
as a contiguous part of the case-folded string.  `caseFold` is the case folding
of one character, a table of the Qt library. -/
def containsCI (caseFold : Char → Char) (s key : QString) : Bool :=
  decide (key.map caseFold <:+: s.map caseFold)

/-- The test of the loop body of `search` (launchermodel.cpp:147-148). -/
def matchesKey (caseFold : Char → Char) (key : QString) (item : AppItem) : Bool :=
  containsCI caseFold item.name key || containsCI caseFold item.id key

/-- `LauncherModel::search` (launchermodel.cpp:138-155): the mode is set from
the key, the buffer is cleared, and the loop appends every matching item. -/
def search (caseFold : Char → Char) (key : QString) (m : LauncherModel) : LauncherModel :=
  let mode := if key.isEmpty then Mode.NormalMode else Mode.SearchMode
  let cleared : List AppItem := []
  let found := m.m_appItems.foldl
    (fun acc item => if matchesKey caseFold key item then acc ++ [item] else acc) cleared
  { m with m_mode := mode, m_searchItems := found }

/-- `LauncherModel::rowCount` (launchermodel.cpp:87-95). -/
def rowCount (m : LauncherModel) : Nat :=
  if m.m_mode = .SearchMode then m.m_searchItems.length else m.m_appItems.length

/-- `LauncherModel::count` (launchermodel.cpp:82-85). -/
def count (m : LauncherModel) : Nat := rowCount m

/-- The roles of the model.  The enumeration is declared in `launchermodel.h`,
which is not among the sources; its members are those registered by `roleNames`
(launchermodel.cpp:97-111), and `other` stands for any further `int`. -/
inductive Role where
  | AppIdRole
  | ApplicationRole
  | NameRole
  | GenericNameRole
  | CommentRole
  | IconNameRole
  | CategoriesRole
  | FilterInfoRole
  | PinnedRole
  | PinnedIndexRole
  | other (n : Int)
deriving DecidableEq, Repr

/-- A `QVariant` as returned by `data`: invalid, or a string. -/
inductive QVariant where
  | invalid
  | string (s : QString)
deriving DecidableEq, Repr

/-- The `switch` of `data` (launchermodel.cpp:121-135). -/
def roleValue (appItem : AppItem) : Role → QVariant
  | .AppIdRole => .string appItem.id
  | .NameRole => .string appItem.name
  | .IconNameRole => .string appItem.iconName
  | .FilterInfoRole =>
    .string (appItem.name ++ [space] ++ appItem.genericName ++ [space] ++ appItem.comment)
  | _ => .invalid

/-- `LauncherModel::data` (launchermodel.cpp:113-136).  The index is `none`
when it is not valid and the row otherwise; `QList::at` has no result for a row
outside the list it reads. -/
def data (m : LauncherModel) (index : Option Nat) (role : Role) : Option QVariant :=
  match index with
  | none => some .invalid
  | some row =>
    let source := if m.m_mode = .NormalMode then m.m_appItems else m.m_searchItems
    match source[row]? with
    | none => none
    | some appItem => some (roleValue appItem role)

/-! ## launch -/

/-- What `launch` hands to `QProcess`: the program and its arguments.  The
standard input is always the null device and the channels are forwarded. -/
structure SpawnRequest where
  program : QString
  arguments : List QString
deriving DecidableEq, Repr

/-- What one call of `launch` does: the value returned, the process started
(if any), whether `applicationLaunched` was emitted, and the state afterwards. -/
structure LaunchOutcome where
  result : Bool
  spawned : Option SpawnRequest
  applicationLaunched : Bool
  model : LauncherModel
deriving DecidableEq, Repr

/-- The program name singled out by `launch`. -/
def screenshotProgram : QString := "cutefish-screenshot".toList

/-- The arguments `launch` gives to the screenshot program. -/
def screenshotArguments : List QString := ["-d".toList, "200".toList]

/-- `LauncherModel::launch` (launchermodel.cpp:262-289).  `startDetached` is
the process-spawning primitive.  There is no result when `QList::at` is used
outside the catalog or `takeFirst` is applied to an empty list of args. -/
def launch (startDetached : SpawnRequest → Bool) (path : QString) (m : LauncherModel) :
    Option LaunchOutcome :=
  let index := findById m path
  if index ≠ -1 then
    match m.m_appItems[index.toNat]? with
    | none => none
    | some item =>
      match item.args with
      | [] => none
      | cmd :: args =>
        let p1 : SpawnRequest := { program := cmd, arguments := args }
        let p2 := if cmd = screenshotProgram then { p1 with arguments := screenshotArguments } else p1
        some { result := startDetached p2, spawned := some p2, applicationLaunched := true,
               model := m }
  else
    some { result := false, spawned := none, applicationLaunched := false, model := m }

/-! ## Sequences of slot calls -/

/-- One call on the model: `addApp` with what the reader finds at the path at
that moment, `removeApp`, `move`, or the `refreshed` signal that runs
`onRefreshed`. -/
inductive ModelOp where
  | add (desktop : DesktopProperties) (fileName : QString)
  | remove (fileName : QString)
  | move (from_ to_ page pageCount : Int)
  | refreshed
deriving DecidableEq, Repr

/-- Apply one call; only `move` can be without a result. -/
def stepOp (env : Env) (m : LauncherModel) : ModelOp → Option LauncherModel
  | .add desktop fileName => some (addApp env desktop fileName m)
  | .remove fileName => some (removeApp fileName m)
  | .move from_ to_ page pageCount => move from_ to_ page pageCount m
  | .refreshed => some (onRefreshed m)

/-- Apply a finite sequence of calls, first call first. -/
def runOps (env : Env) : List ModelOp → LauncherModel → Option LauncherModel
  | [], m => some m
  | op :: rest, m =>
    match stepOp env m op with
    | some m1 => runOps env rest m1
    | none => none

/-! ## Notions used to state the properties of the normaliser -/

/-- After a percent sign the only character that may follow is the line feed. -/
def FieldCodeFree (a b : Char) : Prop := a = percent → b = newline

/-- The words of a string: its maximal runs of characters that are not whitespace. -/
def wordsOf (s : QString) : List QString := (s.splitOnP isSpace).filter (fun w => !w.isEmpty)

/-- Every item of the list has at least one token in its args. -/
def ArgsNonempty (items : List AppItem) : Prop := ∀ item ∈ items, item.args ≠ []

/-- The item carries what its desktop entry says now: writing the entry over it
again changes nothing. -/
def Fresh (env : Env) (fs : QString → DesktopProperties) (x : AppItem) : Prop :=
  updateItem env (fs x.id) x = x

/-- The Exec line of the normalisation scenario: the program path in double
quotes, with a space inside, followed by the field code `%F`. -/
def quotedExec : QString :=
  [dquote] ++ "/usr/bin/my app".toList ++ [dquote] ++ " %F".toList

/-! ## Sequences of catalog messages -/

/-- One message to the catalog: an `addApp` call, with what the reader finds at
the path at that moment, or a `removeApp` call. -/
inductive CatalogOp where
  | add (desktop : DesktopProperties) (fileName : QString)
  | remove (fileName : QString)
deriving DecidableEq, Repr

/-- Apply one message. -/
def applyOp (env : Env) (m : LauncherModel) : CatalogOp → LauncherModel
  | .add desktop fileName => addApp env desktop fileName m
  | .remove fileName => removeApp fileName m

/-- Apply a finite sequence of messages, first message first. -/
def applyOps (env : Env) (ops : List CatalogOp) (m : LauncherModel) : LauncherModel :=
  ops.foldl (applyOp env) m

/-! ## Sample values for the concrete scenarios -/

/-- An environment with `XDG_CURRENT_DESKTOP=Cutefish` and locale `en_US`. -/
def sampleEnv : Env := { xdgCurrentDesktop := "Cutefish".toList, localeName := "en_US".toList }

/-- A catalog item whose id, name and program are all the given text. -/
def sampleItem (s : String) : AppItem :=
  { id := s.toList, name := s.toList, genericName := [], comment := [], iconName := [],
    args := [s.toList] }

/-- A model in normal mode with the given catalog and sort flag, the timer never started. -/
def sampleModel (items : List AppItem) (needSort : Bool) : LauncherModel :=
  { m_appItems := items, m_searchItems := [], m_mode := .NormalMode, m_needSort := needSort,
    m_saveTimerActive := false, m_saveTimerStarts := 0 }

/-- The contents of a desktop entry, from its key/value lines. -/
def sampleEntry (kvs : List (String × String)) : DesktopProperties :=
  { entries := kvs.map (fun kv => (kv.1.toList, kv.2.toList)) }

/-- A directory with two entries: "a" now carries `NoDisplay=true`, "b" is an
ordinary visible entry. -/
def sampleFs (path : QString) : DesktopProperties :=
  if path = "a".toList then sampleEntry [("Name", "A"), ("Exec", "a"), ("NoDisplay", "true")]
  else sampleEntry [("Name", "B"), ("Exec", "b")]

/-! # Theorems -/

/-! ## Auxiliary facts: findById -/

theorem findByIdFrom_cases (id : QString) (l : List AppItem) (i : Nat) :
    (findByIdFrom id l i = -1 ∧ ∀ x ∈ l, x.id ≠ id) ∨
    (∃ l1 x l2, l = l1 ++ x :: l2 ∧ x.id = id ∧ (∀ y ∈ l1, y.id ≠ id) ∧
      findByIdFrom id l i = ((i + l1.length : Nat) : Int)) := by
  induction l generalizing i with
  | nil => left; simp [findByIdFrom]
  | cons a rest ih =>
    by_cases h : a.id = id
    · right
      exact ⟨[], a, rest, rfl, h, by simp, by simp [findByIdFrom, h]⟩
    · rcases ih (i + 1) with ⟨h1, h2⟩ | ⟨l1, x, l2, hl, hx, hne, hf⟩
      · left
        refine ⟨by simp [findByIdFrom, h, h1], ?_⟩
        intro y hy
        rcases List.mem_cons.mp hy with rfl | hy
        · exact h
        · exact h2 y hy
      · right
        refine ⟨a :: l1, x, l2, by simp [hl], hx, ?_, ?_⟩
        · intro y hy
          rcases List.mem_cons.mp hy with rfl | hy
          · exact h
          · exact hne y hy
        · simp only [findByIdFrom, h, if_false, hf, List.length_cons]
          congr 1
          omega

theorem findById_cases (m : LauncherModel) (id : QString) :
    (findById m id = -1 ∧ id ∉ ids m.m_appItems) ∨
    (∃ l1 x l2, m.m_appItems = l1 ++ x :: l2 ∧ x.id = id ∧ (∀ y ∈ l1, y.id ≠ id) ∧
      findById m id = (l1.length : Int)) := by
  rcases findByIdFrom_cases id m.m_appItems 0 with ⟨h1, h2⟩ | ⟨l1, x, l2, hl, hx, hne, hf⟩
  · left
    refine ⟨h1, ?_⟩
    simp only [ids, List.mem_map, not_exists, not_and]
    exact fun x hx => h2 x hx
  · right
    exact ⟨l1, x, l2, hl, hx, hne, by simpa [findById] using hf⟩

theorem modify_length_append {α : Type} (f : α → α) (l1 : List α) (x : α) (l2 : List α) :
    (l1 ++ x :: l2).modify f l1.length = l1 ++ f x :: l2 := by
  induction l1 with
  | nil => simp
  | cons a l1 ih => simp [ih]

theorem eraseIdx_length_append {α : Type} (l1 : List α) (x : α) (l2 : List α) :
    (l1 ++ x :: l2).eraseIdx l1.length = l1 ++ l2 := by
  induction l1 with
  | nil => simp
  | cons a l1 ih => simp [ih]


/-! ## Auxiliary facts: the branches of addApp and removeApp -/

theorem addApp_of_hidden (env : Env) (desktop : DesktopProperties) (p : QString)
    (m : LauncherModel) (h : entryHidden env desktop = true) :
    addApp env desktop p m = m := by
  simp [addApp, h]

theorem addApp_of_present (env : Env) (desktop : DesktopProperties) (p : QString)
    (m : LauncherModel) (h : entryHidden env desktop = false)
    (l1 : List AppItem) (x : AppItem) (l2 : List AppItem)
    (hl : m.m_appItems = l1 ++ x :: l2) (hf : findById m p = (l1.length : Int)) :
    addApp env desktop p m = { m with m_appItems := l1 ++ updateItem env desktop x :: l2 } := by
  have hle : (l1.length : Int) ≤ (m.m_appItems.length : Int) := by
    rw [hl]; simp; omega
  simp only [addApp, h, hf, Bool.false_eq_true, if_false]
  rw [if_pos ⟨Int.natCast_nonneg _, hle⟩]
  simp [hl, modify_length_append]

theorem addApp_of_absent (env : Env) (desktop : DesktopProperties) (p : QString)
    (m : LauncherModel) (h : entryHidden env desktop = false)
    (hf : findById m p = -1) :
    addApp env desktop p m =
      if m.m_needSort then { m with m_appItems := m.m_appItems ++ [newItem env desktop p] }
      else delaySave { m with m_appItems := m.m_appItems ++ [newItem env desktop p] } := by
  simp only [addApp, h, hf, Bool.false_eq_true, if_false]
  rw [if_neg (by omega)]
  cases m.m_needSort <;> simp

theorem removeApp_of_present (p : QString) (m : LauncherModel)
    (l1 : List AppItem) (x : AppItem) (l2 : List AppItem)
    (hl : m.m_appItems = l1 ++ x :: l2) (hf : findById m p = (l1.length : Int)) :
    removeApp p m = delaySave { m with m_appItems := l1 ++ l2 } := by
  simp only [removeApp, hf]
  rw [if_neg (by omega)]
  simp [hl, eraseIdx_length_append]

theorem removeApp_of_absent (p : QString) (m : LauncherModel) (hf : findById m p = -1) :
    removeApp p m = m := by
  simp [removeApp, hf]

theorem delaySave_appItems (m : LauncherModel) : (delaySave m).m_appItems = m.m_appItems := by
  unfold delaySave
  split <;> rfl

theorem delaySave_starts (m : LauncherModel) :
    (delaySave m).m_saveTimerStarts = m.m_saveTimerStarts + 1 := by
  unfold delaySave
  split <;> rfl

theorem delaySave_active (m : LauncherModel) : (delaySave m).m_saveTimerActive = true := by
  unfold delaySave
  split <;> rfl

theorem delaySave_needSort (m : LauncherModel) : (delaySave m).m_needSort = m.m_needSort := by
  unfold delaySave
  split <;> rfl

theorem ids_nodup_addApp (env : Env) (desktop : DesktopProperties) (p : QString)
    (m : LauncherModel) (h : (ids m.m_appItems).Nodup) :
    (ids (addApp env desktop p m).m_appItems).Nodup := by
  cases hh : entryHidden env desktop with
  | true => rw [addApp_of_hidden env desktop p m hh]; exact h
  | false =>
    rcases findById_cases m p with ⟨hf, hnot⟩ | ⟨l1, x, l2, hl, hx, _, hf⟩
    · rw [addApp_of_absent env desktop p m hh hf]
      have key : (ids (m.m_appItems ++ [newItem env desktop p])).Nodup := by
        simp only [ids, List.map_append, List.map_cons, List.map_nil, newItem]
        rw [List.nodup_append]
        refine ⟨h, List.nodup_singleton _, ?_⟩
        intro a ha hb
        rw [List.mem_singleton] at hb
        subst hb
        exact hnot ha
      split
      · exact key
      · rw [delaySave_appItems]; exact key
    · rw [addApp_of_present env desktop p m hh l1 x l2 hl hf]
      have : ids (l1 ++ updateItem env desktop x :: l2) = ids m.m_appItems := by
        simp [ids, hl, updateItem]
      show (ids (l1 ++ updateItem env desktop x :: l2)).Nodup
      rw [this]; exact h

theorem ids_nodup_removeApp (p : QString) (m : LauncherModel) (h : (ids m.m_appItems).Nodup) :
    (ids (removeApp p m).m_appItems).Nodup := by
  rcases findById_cases m p with ⟨hf, _⟩ | ⟨l1, x, l2, hl, _, _, hf⟩
  · rw [removeApp_of_absent p m hf]; exact h
  · rw [removeApp_of_present p m l1 x l2 hl hf, delaySave_appItems]
    show (ids (l1 ++ l2)).Nodup
    have hs : (ids (l1 ++ l2)).Sublist (ids m.m_appItems) := by
      rw [hl]
      simp only [ids]
      exact List.Sublist.map _ (List.Sublist.append_left (List.sublist_cons_self x l2) l1)
    exact hs.nodup h

/-! ## C1: ids stay unique -/

/-- C1: for every catalog whose ids are pairwise distinct and every finite
sequence of `addApp` and `removeApp` calls, with arbitrary paths and arbitrary
desktop-entry contents, every id appears at most once in the resulting catalog. -/
theorem ids_nodup_applyOps (env : Env) (ops : List CatalogOp) (m : LauncherModel)
    (h : (ids m.m_appItems).Nodup) : (ids (applyOps env ops m).m_appItems).Nodup := by
  induction ops generalizing m with
  | nil => exact h
  | cons op rest ih =>
    have hstep : (ids (applyOp env m op).m_appItems).Nodup := by
      cases op with
      | add desktop fileName => exact ids_nodup_addApp env desktop fileName m h
      | remove fileName => exact ids_nodup_removeApp fileName m h
    exact ih (applyOp env m op) hstep


/-- Witness for C1: a two-item catalog, then an insert, an update in place, a
removal and the insert of a hidden entry. -/
theorem ids_nodup_applyOps_witness :
    (ids (sampleModel [sampleItem "a", sampleItem "b"] false).m_appItems).Nodup ∧
    (ids (applyOps sampleEnv
      [.add (sampleEntry [("Name", "C"), ("Exec", "c %U")]) "c".toList,
       .add (sampleEntry [("Name", "A2")]) "a".toList,
       .remove "b".toList,
       .add (sampleEntry [("NoDisplay", "true")]) "d".toList]
      (sampleModel [sampleItem "a", sampleItem "b"] false)).m_appItems).Nodup :=
  ⟨by decide, ids_nodup_applyOps _ _ _ (by decide)⟩

/-! ## C3: hidden entries -/

theorem contains_of_toBool_value (desktop : DesktopProperties) (key : QString)
    (h : toBool (desktop.value key) = true) : desktop.contains key = true := by
  unfold DesktopProperties.value at h
  unfold DesktopProperties.contains
  cases hl : desktop.entries.lookup key with
  | none =>
    rw [hl] at h
    revert h
    decide
  | some v => rfl

/-- C3: for every desktop entry in which `Terminal=true`, or `NoDisplay=true`, or
`Hidden=true`, whatever its other keys are, `addApp` treats the entry as hidden
and returns without building an item: the whole state is unchanged, so the
catalog has no item for the path that was not there before, and for a path not
in the catalog the catalog is unchanged and the save timer is not restarted. -/
theorem addApp_hidden_entry (env : Env) (desktop : DesktopProperties) (p : QString)
    (m : LauncherModel)
    (h : toBool (desktop.value keyTerminal) = true ∨
      toBool (desktop.value keyNoDisplay) = true ∨
      toBool (desktop.value keyHidden) = true) :
    entryHidden env desktop = true ∧ addApp env desktop p m = m ∧
      (p ∉ ids m.m_appItems → p ∉ ids (addApp env desktop p m).m_appItems) ∧
      (addApp env desktop p m).m_saveTimerStarts = m.m_saveTimerStarts := by
  have hh : entryHidden env desktop = true := by
    unfold entryHidden
    rcases h with h | h | h
    · simp [h, contains_of_toBool_value desktop _ h]
    · simp [h]
    · simp [h]
  have he := addApp_of_hidden env desktop p m hh
  refine ⟨hh, he, ?_, ?_⟩
  · rw [he]; exact id
  · rw [he]

/-- Witness for C3: an entry with `Terminal=true` and a path not in the catalog. -/
theorem addApp_hidden_entry_witness :
    toBool ((sampleEntry [("Name", "T"), ("Terminal", "true")]).value keyTerminal) = true ∧
    addApp sampleEnv (sampleEntry [("Name", "T"), ("Terminal", "true")]) "t".toList
      (sampleModel [sampleItem "a"] false) = sampleModel [sampleItem "a"] false :=
  ⟨by decide,
    (addApp_hidden_entry sampleEnv (sampleEntry [("Name", "T"), ("Terminal", "true")])
      "t".toList (sampleModel [sampleItem "a"] false) (Or.inl (by decide))).2.1⟩


/-! ## C6: the frame of addApp -/

theorem findById_of_not_mem (m : LauncherModel) (id : QString) (h : id ∉ ids m.m_appItems) :
    findById m id = -1 := by
  rcases findById_cases m id with ⟨hf, _⟩ | ⟨l1, x, l2, hl, hx, _, _⟩
  · exact hf
  · exfalso
    apply h
    simp only [ids, List.mem_map]
    exact ⟨x, by simp [hl], hx⟩

theorem position_unique (l1 : List AppItem) (x : AppItem) (l2 : List AppItem) (p : QString)
    (hnd : (ids (l1 ++ x :: l2)).Nodup) (hx : x.id = p) (i : Nat) (old : AppItem)
    (hi : (l1 ++ x :: l2)[i]? = some old) (hold : old.id = p) :
    i = l1.length ∧ old = x := by
  simp only [ids, List.map_append, List.map_cons] at hnd
  rw [List.nodup_append] at hnd
  obtain ⟨_, h2, h3⟩ := hnd
  rw [List.nodup_cons] at h2
  rcases Nat.lt_trichotomy i l1.length with hlt | heq | hgt
  · exfalso
    rw [List.getElem?_append_left hlt] at hi
    have hmem : old ∈ l1 := List.getElem?_mem hi
    exact h3 (List.mem_map_of_mem AppItem.id hmem)
      (by rw [hold, ← hx]; exact List.mem_cons_self _ _)
  · subst heq
    rw [List.getElem?_append_right (Nat.le_refl _), Nat.sub_self, List.getElem?_cons_zero] at hi
    exact ⟨rfl, (Option.some.inj hi).symm⟩
  · exfalso
    rw [List.getElem?_append_right (by omega)] at hi
    obtain ⟨k, hk⟩ : ∃ k, i - l1.length = k + 1 := ⟨i - l1.length - 1, by omega⟩
    rw [hk, List.getElem?_cons_succ] at hi
    have hmem : old ∈ l2 := List.getElem?_mem hi
    apply h2.1
    rw [hx, ← hold]
    exact List.mem_map_of_mem AppItem.id hmem

/-- C6: for every catalog with distinct ids and every visible desktop entry at
path `p`: if `p` is the id of the item at index `i`, `addApp` overwrites name,
genericName, comment, iconName and args of that item and leaves its id, the
catalog length and every other item and its position unchanged; if `p` is not
an id of the catalog, the result is the old catalog with exactly one new item
with id `p` appended at the end. -/
theorem addApp_frame (env : Env) (desktop : DesktopProperties) (p : QString)
    (m : LauncherModel) (hnd : (ids m.m_appItems).Nodup)
    (hvis : entryHidden env desktop = false) :
    (∀ (i : Nat) (old : AppItem), m.m_appItems[i]? = some old → old.id = p →
      (addApp env desktop p m).m_appItems =
        m.m_appItems.set i
          { id := old.id
            name := appName env desktop
            genericName := desktop.value keyComment
            comment := desktop.value keyComment
            iconName := desktop.value keyIcon
            args := execArgs (desktop.value keyExec) } ∧
      (addApp env desktop p m).m_appItems.length = m.m_appItems.length ∧
      (∀ j, j ≠ i → (addApp env desktop p m).m_appItems[j]? = m.m_appItems[j]?)) ∧
    (p ∉ ids m.m_appItems →
      (addApp env desktop p m).m_appItems =
        m.m_appItems ++
          [{ id := p
             name := appName env desktop
             genericName := desktop.value keyComment
             comment := desktop.value keyComment
             iconName := desktop.value keyIcon
             args := execArgs (desktop.value keyExec) }]) := by
  constructor
  · intro i old hi hold
    rcases findById_cases m p with ⟨_, hnot⟩ | ⟨l1, x, l2, hl, hx, _, hf⟩
    · exfalso
      apply hnot
      simp only [ids, List.mem_map]
      exact ⟨old, List.getElem?_mem hi, hold⟩
    · rw [hl] at hnd hi
      obtain ⟨rfl, rfl⟩ := position_unique l1 x l2 p hnd hx i old hi hold
      have hset : (addApp env desktop p m).m_appItems =
          m.m_appItems.set l1.length (updateItem env desktop old) := by
        rw [addApp_of_present env desktop p m hvis l1 old l2 hl hf, hl]
        simp
      refine ⟨hset, ?_, ?_⟩
      · rw [hset]; simp
      · intro j hj
        rw [hset, List.getElem?_set_ne (Ne.symm hj)]
  · intro hnot
    rw [addApp_of_absent env desktop p m hvis (findById_of_not_mem m p hnot)]
    split
    · rfl
    · rw [delaySave_appItems]; rfl

/-- Witness for C6: the item "a" of a two-item catalog is overwritten in place. -/
theorem addApp_frame_witness :
    (ids (sampleModel [sampleItem "a", sampleItem "b"] false).m_appItems).Nodup ∧
    entryHidden sampleEnv (sampleEntry [("Name", "A2"), ("Exec", "a2 %u")]) = false ∧
    (addApp sampleEnv (sampleEntry [("Name", "A2"), ("Exec", "a2 %u")]) "a".toList
      (sampleModel [sampleItem "a", sampleItem "b"] false)).m_appItems.length = 2 :=
  ⟨by decide, by decide,
    ((addApp_frame sampleEnv (sampleEntry [("Name", "A2"), ("Exec", "a2 %u")]) "a".toList
      (sampleModel [sampleItem "a", sampleItem "b"] false) (by decide) (by decide)).1
      0 (sampleItem "a") (by decide) (by decide)).2.1⟩

/-! ## C7: addApp and the save timer -/

/-- C7, the code at the failing input: with `needSort` false, `addApp` for a
visible entry whose path is already in the catalog rewrites the item in place
and leaves the save timer as it was (not running, never started), whereas the
same entry at a new path appends an item and starts the timer. -/
theorem addApp_update_skips_delaySave :
    entryHidden sampleEnv (sampleEntry [("Name", "A2"), ("Exec", "a2")]) = false ∧
    (addApp sampleEnv (sampleEntry [("Name", "A2"), ("Exec", "a2")]) "a".toList
      (sampleModel [sampleItem "a"] false)).m_appItems =
      [{ sampleItem "a" with name := "A2".toList, args := ["a2".toList] }] ∧
    (addApp sampleEnv (sampleEntry [("Name", "A2"), ("Exec", "a2")]) "a".toList
      (sampleModel [sampleItem "a"] false)).m_saveTimerStarts = 0 ∧
    (addApp sampleEnv (sampleEntry [("Name", "A2"), ("Exec", "a2")]) "a".toList
      (sampleModel [sampleItem "a"] false)).m_saveTimerActive = false ∧
    (addApp sampleEnv (sampleEntry [("Name", "A2"), ("Exec", "a2")]) "b".toList
      (sampleModel [sampleItem "a"] false)).m_saveTimerStarts = 1 := by
  decide

/-! ## C8: removeApp -/

/-- C8: for every catalog with distinct ids and every path `p`: if `p` is an id
of the catalog, `removeApp p` yields the catalog with exactly that item deleted
and all other items in their previous relative order, `findById p` is -1
afterwards, and the deferred-save timer is restarted; if `p` is not an id of the
catalog, `removeApp p` changes nothing and does not restart the timer. -/
theorem removeApp_spec (p : QString) (m : LauncherModel) (hnd : (ids m.m_appItems).Nodup) :
    (p ∈ ids m.m_appItems →
      ∃ l1 x l2, m.m_appItems = l1 ++ x :: l2 ∧ x.id = p ∧
        (removeApp p m).m_appItems = l1 ++ l2 ∧
        p ∉ ids (removeApp p m).m_appItems ∧
        findById (removeApp p m) p = -1 ∧
        (removeApp p m).m_saveTimerStarts = m.m_saveTimerStarts + 1 ∧
        (removeApp p m).m_saveTimerActive = true) ∧
    (p ∉ ids m.m_appItems → removeApp p m = m) := by
  constructor
  · intro hmem
    rcases findById_cases m p with ⟨_, hnot⟩ | ⟨l1, x, l2, hl, hx, hne, hf⟩
    · exact absurd hmem hnot
    · have hr := removeApp_of_present p m l1 x l2 hl hf
      have hitems : (removeApp p m).m_appItems = l1 ++ l2 := by
        rw [hr, delaySave_appItems]
      have hgone : p ∉ ids (removeApp p m).m_appItems := by
        rw [hitems]
        rw [hl] at hnd
        simp only [ids, List.map_append, List.map_cons] at hnd ⊢
        rw [List.nodup_append] at hnd
        obtain ⟨_, h2, h3⟩ := hnd
        rw [List.nodup_cons] at h2
        intro hin
        rcases List.mem_append.mp hin with h | h
        · exact h3 h (by rw [hx]; exact List.mem_cons_self _ _)
        · exact h2.1 (by rw [hx]; exact h)
      refine ⟨l1, x, l2, hl, hx, hitems, hgone, findById_of_not_mem _ p hgone, ?_, ?_⟩
      · rw [hr, delaySave_starts]
      · rw [hr, delaySave_active]
  · intro hnot
    exact removeApp_of_absent p m (findById_of_not_mem m p hnot)

/-- Witness for C8: removing "b" from the catalog a, b, c. -/
theorem removeApp_spec_witness :
    (ids (sampleModel [sampleItem "a", sampleItem "b", sampleItem "c"] false).m_appItems).Nodup ∧
    (removeApp "b".toList
      (sampleModel [sampleItem "a", sampleItem "b", sampleItem "c"] false)).m_appItems =
      [sampleItem "a", sampleItem "c"] ∧
    removeApp "z".toList (sampleModel [sampleItem "a", sampleItem "b", sampleItem "c"] false) =
      sampleModel [sampleItem "a", sampleItem "b", sampleItem "c"] false :=
  ⟨by decide, by decide,
    (removeApp_spec "z".toList
      (sampleModel [sampleItem "a", sampleItem "b", sampleItem "c"] false) (by decide)).2
      (by decide)⟩

/-! ## C10: move with equal indices -/

/-- C10: for every catalog and all integers `i`, `p`, `n`, also those whose
effective position lies outside the catalog, `move i i p n` returns with the
state as it was: the items are unchanged and the deferred-save timer is not
restarted. -/
theorem move_same_index (m : LauncherModel) (i p n : Int) :
    move i i p n m = some m ∧
    (move i i p n m).map LauncherModel.m_appItems = some m.m_appItems ∧
    (move i i p n m).map LauncherModel.m_saveTimerStarts = some m.m_saveTimerStarts ∧
    (move i i p n m).map LauncherModel.m_saveTimerActive = some m.m_saveTimerActive := by
  have h : move i i p n m = some m := by simp [move]
  rw [h]
  exact ⟨rfl, rfl, rfl, rfl⟩


/-! ## C4: the normalised Exec line -/

theorem removeFieldCodes_cons_ne (c : Char) (rest : QString) (h : c ≠ percent) :
    removeFieldCodes (c :: rest) = c :: removeFieldCodes rest := by
  cases rest with
  | nil => simp [removeFieldCodes]
  | cons d rest => simp [removeFieldCodes, h]

theorem newline_ne_percent : newline ≠ percent := by decide

theorem newline_ne_dquote : newline ≠ dquote := by decide

theorem isSpace_newline : isSpace newline = true := by decide

theorem isSpace_space : isSpace space = true := by decide

theorem chain_removeFieldCodes (s : QString) :
    List.Chain' FieldCodeFree (removeFieldCodes s) := by
  induction s using removeFieldCodes.induct with
  | case1 => simp [removeFieldCodes]
  | case2 c => simp [removeFieldCodes]
  | case3 c d rest h ih => simpa [removeFieldCodes, h] using ih
  | case4 c d rest h ih =>
    have hr : removeFieldCodes (c :: d :: rest) = c :: removeFieldCodes (d :: rest) := by
      simp only [removeFieldCodes, h, if_false]
    rw [hr, List.chain'_cons']
    refine ⟨?_, ih⟩
    intro y hy hc
    have hd : d = newline := by
      by_contra hne
      exact h ⟨hc, hne⟩
    subst hd
    rw [removeFieldCodes_cons_ne newline rest newline_ne_percent] at hy
    simp at hy
    exact hy.symm

theorem chain_removeLeadingQuote (s : QString) (h : List.Chain' FieldCodeFree s) :
    List.Chain' FieldCodeFree (removeLeadingQuote s) := by
  cases s with
  | nil => simp [removeLeadingQuote]
  | cons c rest =>
    simp only [removeLeadingQuote]
    split
    · exact h.tail
    · exact h

theorem chain_removeQuotes (s : QString) (h : List.Chain' FieldCodeFree s) :
    List.Chain' FieldCodeFree (removeQuotes s) := by
  induction s with
  | nil => simp [removeQuotes]
  | cons x l ih =>
    rw [List.chain'_cons'] at h
    have ih2 := ih h.2
    unfold removeQuotes at ih2 ⊢
    rw [List.filter_cons]
    split
    · rw [List.chain'_cons']
      refine ⟨?_, ih2⟩
      intro y hy hx
      cases l with
      | nil => simp at hy
      | cons z l2 =>
        have hz : z = newline := h.1 z (by simp) hx
        subst hz
        have : (newline != dquote) = true := by decide
        rw [List.filter_cons, if_pos this] at hy
        simp at hy
        exact hy.symm
    · exact ih2

theorem splitOnP_head_isPrefix (p : Char → Bool) (s : QString) :
    ∀ h t, s.splitOnP p = h :: t → h <+: s := by
  induction s with
  | nil =>
    intro h t e
    simp at e
    rw [← e.1]
  | cons x xs ih =>
    intro h t e
    rw [List.splitOnP_cons] at e
    by_cases hp : p x = true
    · rw [if_pos hp] at e
      rw [← (List.cons.inj e).1]
      exact List.nil_prefix
    · rw [if_neg hp] at e
      cases hs : xs.splitOnP p with
      | nil => exact absurd hs (List.splitOnP_ne_nil p xs)
      | cons h2 t2 =>
        rw [hs] at e
        simp only [List.modifyHead_cons] at e
        rw [← (List.cons.inj e).1]
        exact (List.prefix_cons_inj x).mpr (ih h2 t2 hs)

theorem splitOnP_mem_isInfix (p : Char → Bool) (s : QString) :
    ∀ w ∈ s.splitOnP p, w <:+: s := by
  induction s with
  | nil =>
    intro w hw
    simp at hw
    subst hw
    exact List.infix_refl _
  | cons x xs ih =>
    intro w hw
    rw [List.splitOnP_cons] at hw
    by_cases hp : p x = true
    · rw [if_pos hp] at hw
      rcases List.mem_cons.mp hw with rfl | hw
      · exact List.nil_infix
      · exact List.infix_cons (ih w hw)
    · rw [if_neg hp] at hw
      cases hs : xs.splitOnP p with
      | nil => exact absurd hs (List.splitOnP_ne_nil p xs)
      | cons h2 t2 =>
        rw [hs] at hw
        simp only [List.modifyHead_cons] at hw
        rcases List.mem_cons.mp hw with rfl | hw
        · exact ((List.prefix_cons_inj x).mpr (splitOnP_head_isPrefix p xs h2 t2 hs)).isInfix
        · exact List.infix_cons (ih w (by rw [hs]; exact List.mem_cons_of_mem _ hw))

theorem splitOnP_mem_not (p : Char → Bool) (s : QString) :
    ∀ w ∈ s.splitOnP p, ∀ c ∈ w, p c = false := by
  induction s with
  | nil =>
    intro w hw c hc
    simp at hw
    subst hw
    simp at hc
  | cons x xs ih =>
    intro w hw c hc
    rw [List.splitOnP_cons] at hw
    by_cases hp : p x = true
    · rw [if_pos hp] at hw
      rcases List.mem_cons.mp hw with rfl | hw
      · simp at hc
      · exact ih w hw c hc
    · rw [if_neg hp] at hw
      cases hs : xs.splitOnP p with
      | nil => exact absurd hs (List.splitOnP_ne_nil p xs)
      | cons h2 t2 =>
        rw [hs] at hw
        simp only [List.modifyHead_cons] at hw
        rcases List.mem_cons.mp hw with rfl | hw
        · rcases List.mem_cons.mp hc with rfl | hc
          · simpa using hp
          · exact ih h2 (by rw [hs]; exact List.mem_cons_self _ _) c hc
        · exact ih w (by rw [hs]; exact List.mem_cons_of_mem _ hw) c hc

theorem simplified_eq (s : QString) : simplified s = [space].intercalate (wordsOf s) := rfl

theorem wordsOf_no_space (s : QString) : ∀ w ∈ wordsOf s, space ∉ w := by
  intro w hw hsp
  have hw2 : w ∈ s.splitOnP isSpace := (List.mem_filter.mp hw).1
  have := splitOnP_mem_not isSpace s w hw2 space hsp
  rw [isSpace_space] at this
  exact Bool.noConfusion this

theorem splitOn_simplified (s : QString) :
    (simplified s).splitOn space = if wordsOf s = [] then [[]] else wordsOf s := by
  rw [simplified_eq]
  split
  · rename_i h
    rw [h]
    rfl
  · rename_i h
    exact List.splitOn_intercalate _ space (wordsOf_no_space s) h

theorem simplified_eq_nil_iff (s : QString) : simplified s = [] ↔ wordsOf s = [] := by
  constructor
  · intro h
    by_contra hne
    have h1 := splitOn_simplified s
    rw [if_neg hne, h] at h1
    have hmem : ([] : QString) ∈ wordsOf s := by
      rw [← h1]; simp
    have := (List.mem_filter.mp hmem).2
    simp at this
  · intro h
    rw [simplified_eq, h]
    rfl


theorem execArgs_eq (exec : QString) :
    execArgs exec =
      if wordsOf (removeQuotes (removeLeadingQuote (removeFieldCodes exec))) = [] then [[]]
      else wordsOf (removeQuotes (removeLeadingQuote (removeFieldCodes exec))) := by
  unfold execArgs normalizeExec
  exact splitOn_simplified _

theorem normalizeExec_eq_nil_iff (exec : QString) :
    normalizeExec exec = [] ↔
      wordsOf (removeQuotes (removeLeadingQuote (removeFieldCodes exec))) = [] := by
  unfold normalizeExec
  exact simplified_eq_nil_iff _

theorem wordsOf_ne_nil (s : QString) : ∀ w ∈ wordsOf s, w ≠ [] := by
  intro w hw h
  have := (List.mem_filter.mp hw).2
  rw [h] at this
  simp at this

theorem word_no_field_code (s : QString) (hs : List.Chain' FieldCodeFree s) :
    ∀ w ∈ wordsOf s, ∀ pre c post, w ≠ pre ++ percent :: c :: post := by
  intro w hw pre c post heq
  have hw2 : w ∈ s.splitOnP isSpace := (List.mem_filter.mp hw).1
  have hchain : List.Chain' FieldCodeFree w := hs.infix (splitOnP_mem_isInfix isSpace s w hw2)
  rw [heq] at hchain
  have h2 : List.Chain' FieldCodeFree (percent :: c :: post) :=
    hchain.suffix (List.suffix_append pre _)
  have hc : c = newline := (List.chain'_cons.mp h2).1 rfl
  have hmem : c ∈ w := by rw [heq]; simp
  have := splitOnP_mem_not isSpace s w hw2 c hmem
  rw [hc, isSpace_newline] at this
  exact Bool.noConfusion this

theorem word_no_dquote (s : QString) : ∀ w ∈ wordsOf (removeQuotes s), dquote ∉ w := by
  intro w hw hq
  have hw2 : w ∈ (removeQuotes s).splitOnP isSpace := (List.mem_filter.mp hw).1
  have hsub : dquote ∈ removeQuotes s :=
    (splitOnP_mem_isInfix isSpace _ w hw2).subset hq
  unfold removeQuotes at hsub
  have := (List.mem_filter.mp hsub).2
  simp at this

/-- C4 as stated fails: an Exec line of two consecutive spaces, and one of a
field code between spaces, normalise to the empty line, whose split is the
single empty token. -/
theorem execArgs_spaces_counterexample :
    execArgs [space, space] = [[]] ∧
    ¬ (∀ t ∈ execArgs [space, space], t ≠ []) ∧
    ¬ (∀ t ∈ execArgs ([space, space] ++ "%U".toList ++ [space, space]), t ≠ []) := by
  decide

/-- C4, amended: for every Exec string, the args produced by the normalisation
of `addApp` (every match of a percent sign followed by one character removed, a
leading double quote removed, all remaining double quotes removed, whitespace
runs collapsed and the ends trimmed, then split on single spaces) satisfy: no
token contains a percent sign immediately followed by another character, no
token contains a double quote, and a token is empty only when the whole
normalised Exec is empty; in that case, which an Exec of nothing but spaces,
quotes and field codes falls under, the args are the single empty token.  The
quoted scenario, `"/usr/bin/my app" %F`, gives the args `/usr/bin/my` and
`app`. -/
theorem execArgs_normalised :
    (∀ exec : QString, ∀ t ∈ execArgs exec,
      (∀ pre c post, t ≠ pre ++ percent :: c :: post) ∧ dquote ∉ t ∧
        (t = [] → normalizeExec exec = [])) ∧
    (∀ exec : QString, normalizeExec exec = [] → execArgs exec = [[]]) ∧
    execArgs quotedExec = ["/usr/bin/my".toList, "app".toList] := by
  refine ⟨?_, ?_, by decide⟩
  · intro exec t ht
    have hchain : List.Chain' FieldCodeFree
        (removeQuotes (removeLeadingQuote (removeFieldCodes exec))) :=
      chain_removeQuotes _ (chain_removeLeadingQuote _ (chain_removeFieldCodes exec))
    rw [execArgs_eq] at ht
    by_cases hw : wordsOf (removeQuotes (removeLeadingQuote (removeFieldCodes exec))) = []
    · rw [if_pos hw] at ht
      have ht2 : t = [] := by simpa using ht
      subst ht2
      refine ⟨?_, by simp, fun _ => (normalizeExec_eq_nil_iff exec).mpr hw⟩
      intro pre c post h
      simp at h
    · rw [if_neg hw] at ht
      refine ⟨word_no_field_code _ hchain t ht, word_no_dquote _ t ht, ?_⟩
      intro h
      exact absurd h (wordsOf_ne_nil _ t ht)
  · intro exec h
    rw [execArgs_eq, if_pos ((normalizeExec_eq_nil_iff exec).mp h)]

/-- Witness for C4 amended: the second token of an Exec line with doubled spaces. -/
theorem execArgs_normalised_witness :
    "b".toList ∈ execArgs "a  b  %U".toList ∧ dquote ∉ "b".toList :=
  ⟨by decide, (execArgs_normalised.1 "a  b  %U".toList "b".toList (by decide)).2.1⟩


/-! ## C5: the args of an item written by addApp -/

theorem wrapInt_add_wrapInt (a b : Int) (h0 : -2147483648 ≤ a + b) (h1 : a + b < 2147483648) :
    wrapInt (a + wrapInt b) = a + b := by
  unfold wrapInt
  omega

theorem insertIdx_length_append {α : Type} (L : List α) (x : α) (C : List α) :
    (L ++ C).insertIdx L.length x = L ++ x :: C := by
  induction L with
  | nil => simp
  | cons a L ih => simp [ih]

theorem take_of_length_eq {α : Type} (A R : List α) (n : Nat) (h : n = A.length) :
    (A ++ R).take n = A := by
  subst h; simp

theorem drop_of_length_eq {α : Type} (A R : List α) (n : Nat) (h : n = A.length) :
    (A ++ R).drop n = R := by
  subst h; simp

theorem listMove_forward {α : Type} (A B C : List α) (x : α) :
    listMove (A ++ x :: B ++ C) A.length (A.length + B.length) = A ++ B ++ x :: C := by
  unfold listMove
  by_cases hB : B = []
  · subst hB; simp
  · have hpos : 0 < B.length := List.length_pos.mpr hB
    rw [if_neg (by omega), if_pos (by omega)]
    have h1 : (A ++ x :: B ++ C).take A.length = A := by
      rw [List.append_assoc]; exact take_of_length_eq A _ _ rfl
    have h2 : (A ++ x :: B ++ C).drop (A.length + 1) = B ++ C := by
      have : A ++ x :: B ++ C = (A ++ [x]) ++ (B ++ C) := by simp
      rw [this]; exact drop_of_length_eq _ _ _ (by simp)
    have h3 : (A ++ x :: B ++ C).drop A.length = x :: B ++ C := by
      rw [List.append_assoc]; exact drop_of_length_eq A _ _ rfl
    have h4 : (A ++ x :: B ++ C).drop (A.length + B.length + 1) = C := by
      have : A ++ x :: B ++ C = (A ++ x :: B) ++ C := by simp
      rw [this]; exact drop_of_length_eq _ _ _ (by simp; omega)
    rw [h1, h2, h3, h4, take_of_length_eq B C _ (by omega)]
    simp

theorem listMove_backward {α : Type} (A B C : List α) (x : α) :
    listMove (A ++ B ++ x :: C) (A.length + B.length) A.length = A ++ x :: B ++ C := by
  unfold listMove
  by_cases hB : B = []
  · subst hB; simp
  · have hpos : 0 < B.length := List.length_pos.mpr hB
    rw [if_neg (by omega), if_neg (by omega)]
    have h1 : (A ++ B ++ x :: C).take A.length = A := by
      rw [List.append_assoc]; exact take_of_length_eq A _ _ rfl
    have h2 : (A ++ B ++ x :: C).drop (A.length + B.length) = x :: C :=
      drop_of_length_eq _ _ _ (by simp)
    have h3 : (A ++ B ++ x :: C).drop A.length = B ++ x :: C := by
      rw [List.append_assoc]; exact drop_of_length_eq A _ _ rfl
    have h4 : (A ++ B ++ x :: C).drop (A.length + B.length + 1) = C := by
      have : A ++ B ++ x :: C = (A ++ B ++ [x]) ++ C := by simp
      rw [this]
      exact drop_of_length_eq _ _ _
        (by simp only [List.length_append, List.length_cons, List.length_nil])
    rw [h1, h2, h3, h4, take_of_length_eq B (x :: C) _ (by omega)]
    simp

theorem split_at_two {α : Type} (l : List α) (i j : Nat) (hij : i < j) (hj : j < l.length) :
    ∃ A x B y C, l = A ++ x :: B ++ y :: C ∧ A.length = i ∧ A.length + B.length + 1 = j := by
  have hi : i < l.length := by omega
  refine ⟨l.take i, l[i], (l.drop (i + 1)).take (j - i - 1), l[j], l.drop (j + 1), ?_, ?_, ?_⟩
  · have e1 : l = l.take i ++ l[i] :: l.drop (i + 1) := by
      conv_lhs => rw [← List.take_append_drop i l]
      rw [List.drop_eq_getElem_cons hi]
    have e2 : l.drop (i + 1) =
        (l.drop (i + 1)).take (j - i - 1) ++ l[j] :: l.drop (j + 1) := by
      conv_lhs => rw [← List.take_append_drop (j - i - 1) (l.drop (i + 1))]
      rw [List.drop_drop]
      have hk : j - i - 1 + (i + 1) = j := by omega
      have hk2 : i + 1 + (j - i - 1) = j := by omega
      first
        | rw [hk, List.drop_eq_getElem_cons hj]
        | rw [hk2, List.drop_eq_getElem_cons hj]
    conv_lhs => rw [e1, e2]
    simp
  · simp; omega
  · simp; omega


theorem getElem?_length_append {α : Type} (A : List α) (x : α) (R : List α) (n : Nat)
    (h : n = A.length) : (A ++ x :: R)[n]? = some x := by
  subst h
  rw [List.getElem?_append_right (Nat.le_refl _), Nat.sub_self, List.getElem?_cons_zero]

theorem listMove_eq {α : Type} (l : List α) (src dst : Nat) (hne : src ≠ dst)
    (hs : src < l.length) (hd : dst < l.length) :
    ∃ x, l[src]? = some x ∧ listMove l src dst = (l.eraseIdx src).insertIdx dst x ∧
      (listMove l src dst)[dst]? = some x ∧ (listMove l src dst).Perm l := by
  rcases Nat.lt_or_gt_of_ne hne with hlt | hgt
  · obtain ⟨A, x, B, y, C, hl, hA, hB⟩ := split_at_two l src dst hlt hd
    have hl2 : l = A ++ x :: (B ++ [y]) ++ C := by rw [hl]; simp
    have hl3 : l = A ++ x :: (B ++ y :: C) := by rw [hl]; simp
    have hdst : dst = A.length + (B ++ [y]).length := by
      simp only [List.length_append, List.length_cons, List.length_nil]; omega
    have hlen : dst = (A ++ (B ++ [y])).length := by
      simp only [List.length_append, List.length_cons, List.length_nil]; omega
    have hmv : listMove l src dst = A ++ (B ++ [y]) ++ x :: C := by
      rw [← hA, hdst]
      conv_lhs => rw [hl2]
      exact listMove_forward A (B ++ [y]) C x
    refine ⟨x, ?_, ?_, ?_, ?_⟩
    · rw [hl3]; exact getElem?_length_append A x _ src hA.symm
    · rw [hmv]
      have he : l.eraseIdx src = (A ++ (B ++ [y])) ++ C := by
        rw [← hA]
        conv_lhs => rw [hl3]
        rw [eraseIdx_length_append]; simp
      rw [he, hlen, insertIdx_length_append]
    · rw [hmv]
      exact getElem?_length_append _ x C dst hlen
    · rw [hmv]
      have hp : (A ++ ((B ++ [y]) ++ x :: C)).Perm (A ++ x :: ((B ++ [y]) ++ C)) :=
        List.Perm.append_left A List.perm_middle
      rw [hl3]
      simpa [List.append_assoc] using hp
  · obtain ⟨A, y, B, x, C, hl, hA, hB⟩ := split_at_two l dst src hgt hs
    have hl2 : l = A ++ (y :: B) ++ x :: C := hl
    have hsrc : src = A.length + (y :: B).length := by
      simp only [List.length_cons]; omega
    have hlen : src = (A ++ (y :: B)).length := by
      simp only [List.length_append, List.length_cons]; omega
    have hmv : listMove l src dst = A ++ x :: (y :: B) ++ C := by
      rw [← hA, hsrc]
      conv_lhs => rw [hl2]
      exact listMove_backward A (y :: B) C x
    refine ⟨x, ?_, ?_, ?_, ?_⟩
    · rw [hl2]; exact getElem?_length_append _ x C src hlen
    · rw [hmv]
      have he : l.eraseIdx src = A ++ ((y :: B) ++ C) := by
        rw [hlen]
        conv_lhs => rw [hl2]
        rw [eraseIdx_length_append]; simp
      rw [he, ← hA, insertIdx_length_append]
      simp
    · rw [hmv, List.append_assoc]
      exact getElem?_length_append A x _ dst hA.symm
    · rw [hmv]
      have hp : (A ++ x :: ((y :: B) ++ C)).Perm (A ++ ((y :: B) ++ x :: C)) :=
        List.Perm.append_left A List.perm_middle.symm
      rw [hl2]
      simpa [List.append_assoc] using hp


theorem move_of_inside (m : LauncherModel) (from_ to_ page pageSize : Int)
    (hne : from_ ≠ to_) (hlen : (m.m_appItems.length : Int) ≤ 2147483647)
    (hf0 : 0 ≤ from_ + page * pageSize)
    (hf1 : from_ + page * pageSize < (m.m_appItems.length : Int))
    (ht0 : 0 ≤ to_ + page * pageSize)
    (ht1 : to_ + page * pageSize < (m.m_appItems.length : Int)) :
    move from_ to_ page pageSize m =
      some (delaySave
        { m with
          m_appItems :=
            listMove m.m_appItems (from_ + page * pageSize).toNat
              (to_ + page * pageSize).toNat }) := by
  unfold move
  rw [if_neg hne]
  have e1 : wrapInt (from_ + wrapInt (page * pageSize)) = from_ + page * pageSize :=
    wrapInt_add_wrapInt _ _ (by omega) (by omega)
  have e2 : wrapInt (to_ + wrapInt (page * pageSize)) = to_ + page * pageSize :=
    wrapInt_add_wrapInt _ _ (by omega) (by omega)
  simp only [e1, e2]
  unfold qlistMove
  rw [if_pos ⟨hf0, hf1, ht0, ht1⟩]

/-- C9: for every catalog and all `from`, `to`, `page`, `pageSize` with
`from ≠ to` and both effective positions `from + page * pageSize` and
`to + page * pageSize` inside the catalog (whose length, that of a `QList`, fits
a C++ `int`), `move` yields the list obtained by taking out the element at the
first effective position and inserting it again so that it ends at the second
one, all other elements keeping their relative order; the result is a
permutation of the input, and the deferred-save timer is restarted.  The
scenario: the catalog A, B, C with `move(0, 2, 0, 10)` gives B, C, A. -/
theorem move_spec :
    (∀ (m : LauncherModel) (from_ to_ page pageSize : Int),
      from_ ≠ to_ → (m.m_appItems.length : Int) ≤ 2147483647 →
      0 ≤ from_ + page * pageSize → from_ + page * pageSize < (m.m_appItems.length : Int) →
      0 ≤ to_ + page * pageSize → to_ + page * pageSize < (m.m_appItems.length : Int) →
      ∃ x r, m.m_appItems[(from_ + page * pageSize).toNat]? = some x ∧
        move from_ to_ page pageSize m = some r ∧
        r = delaySave
          { m with
            m_appItems :=
              (m.m_appItems.eraseIdx (from_ + page * pageSize).toNat).insertIdx
                (to_ + page * pageSize).toNat x } ∧
        r.m_appItems[(to_ + page * pageSize).toNat]? = some x ∧
        r.m_appItems.Perm m.m_appItems ∧
        r.m_saveTimerStarts = m.m_saveTimerStarts + 1 ∧ r.m_saveTimerActive = true) ∧
    move 0 2 0 10 (sampleModel [sampleItem "A", sampleItem "B", sampleItem "C"] false) =
      some (delaySave (sampleModel [sampleItem "B", sampleItem "C", sampleItem "A"] false)) := by
  refine ⟨?_, by decide⟩
  intro m from_ to_ page pageSize hne hlen hf0 hf1 ht0 ht1
  have hmove := move_of_inside m from_ to_ page pageSize hne hlen hf0 hf1 ht0 ht1
  have hsd : (from_ + page * pageSize).toNat ≠ (to_ + page * pageSize).toNat := by omega
  obtain ⟨x, hx, heq, hget, hperm⟩ :=
    listMove_eq m.m_appItems _ _ hsd (by omega) (by omega)
  refine ⟨x, _, hx, hmove, ?_, ?_, ?_, ?_, ?_⟩
  · rw [heq]
  · rw [delaySave_appItems]; exact hget
  · rw [delaySave_appItems]; exact hperm
  · rw [delaySave_starts]
  · rw [delaySave_active]

/-- Witness for C9: the last of four items is moved to the front, with the
positions given through a page offset. -/
theorem move_spec_witness :
    ∃ r, move (-2) (-5) 1 5
        (sampleModel [sampleItem "A", sampleItem "B", sampleItem "C", sampleItem "D"] false) =
        some r ∧
      r.m_appItems.Perm [sampleItem "A", sampleItem "B", sampleItem "C", sampleItem "D"] := by
  obtain ⟨x, r, _, h2, _, _, h5, _⟩ := move_spec.1
    (sampleModel [sampleItem "A", sampleItem "B", sampleItem "C", sampleItem "D"] false)
    (-2) (-5) 1 5 (by decide) (by decide) (by decide) (by decide) (by decide) (by decide)
  exact ⟨r, h2, h5⟩


/-! ## C2: one refresh -/

/-- C2, the code at the failing input: the catalog holds "a" and "b", both files
are discovered, and the entry of "a" is now rejected by the filter.  After the
refresh "a" is still in the catalog, at its old position, although the
discovered paths with a visible entry are "b" alone. -/
theorem refresh_keeps_rejected_item :
    entryHidden sampleEnv (sampleFs "a".toList) = true ∧
    ["a".toList, "b".toList].filter (fun p => !entryHidden sampleEnv (sampleFs p)) =
      ["b".toList] ∧
    ids (refresh sampleEnv sampleFs ["a".toList, "b".toList]
      (sampleModel [sampleItem "a", sampleItem "b"] false)).m_appItems =
      ["a".toList, "b".toList] := by
  decide


/-! ## C11, C12, C18: the search view -/

theorem foldl_append_if {α : Type} (p : α → Bool) (l init : List α) :
    l.foldl (fun acc x => if p x then acc ++ [x] else acc) init = init ++ l.filter p := by
  induction l generalizing init with
  | nil => simp
  | cons a l ih =>
    rw [List.foldl_cons, ih, List.filter_cons]
    cases p a <;> simp

theorem search_searchItems (caseFold : Char → Char) (key : QString) (m : LauncherModel) :
    (search caseFold key m).m_searchItems = m.m_appItems.filter (matchesKey caseFold key) := by
  simp only [search]
  rw [foldl_append_if]
  simp

theorem search_appItems (caseFold : Char → Char) (key : QString) (m : LauncherModel) :
    (search caseFold key m).m_appItems = m.m_appItems := rfl

theorem search_mode (caseFold : Char → Char) (key : QString) (m : LauncherModel) :
    (search caseFold key m).m_mode = if key.isEmpty then Mode.NormalMode else Mode.SearchMode :=
  rfl

/-- C11: for every catalog and every non-empty key, after `search key` the view
mode is search, the search buffer is exactly the subsequence of the catalog, in
catalog order and each item once, made of the items whose name or id contains
the key case-insensitively, and `count` equals the length of that subsequence. -/
theorem search_spec (caseFold : Char → Char) (key : QString) (m : LauncherModel)
    (hkey : key ≠ []) :
    (search caseFold key m).m_mode = .SearchMode ∧
    (search caseFold key m).m_searchItems =
      m.m_appItems.filter (fun item =>
        decide (key.map caseFold <:+: item.name.map caseFold ∨
          key.map caseFold <:+: item.id.map caseFold)) ∧
    count (search caseFold key m) =
      (m.m_appItems.filter (fun item =>
        decide (key.map caseFold <:+: item.name.map caseFold ∨
          key.map caseFold <:+: item.id.map caseFold))).length := by
  have hmode : (search caseFold key m).m_mode = .SearchMode := by
    rw [search_mode]
    cases key with
    | nil => exact absurd rfl hkey
    | cons c rest => rfl
  have hpred : matchesKey caseFold key = (fun item =>
      decide (key.map caseFold <:+: item.name.map caseFold ∨
        key.map caseFold <:+: item.id.map caseFold)) := by
    funext item
    simp [matchesKey, containsCI]
  have hitems := search_searchItems caseFold key m
  rw [hpred] at hitems
  refine ⟨hmode, hitems, ?_⟩
  unfold count rowCount
  rw [if_pos hmode, hitems]

/-- Witness for C11: the key "F" on the catalog Firefox, files, gimp. -/
theorem search_spec_witness :
    "F".toList ≠ [] ∧
    (search Char.toLower "F".toList
      (sampleModel [sampleItem "Firefox", sampleItem "files", sampleItem "gimp"] false)).m_mode =
      .SearchMode :=
  ⟨by decide,
    (search_spec Char.toLower "F".toList
      (sampleModel [sampleItem "Firefox", sampleItem "files", sampleItem "gimp"] false)
      (by decide)).1⟩

/-- C12: for every catalog and every key `k`, after `search k` followed by
`search ""` the view is the normal view: `count` equals the catalog length and,
for every row in range and every role, `data` gives the value computed from the
catalog item at that row; the catalog itself is unchanged by both calls. -/
theorem search_then_clear (caseFold : Char → Char) (k : QString) (m : LauncherModel) :
    (search caseFold k m).m_appItems = m.m_appItems ∧
    (search caseFold [] (search caseFold k m)).m_appItems = m.m_appItems ∧
    (search caseFold [] (search caseFold k m)).m_mode = .NormalMode ∧
    count (search caseFold [] (search caseFold k m)) = m.m_appItems.length ∧
    (∀ (row : Nat) (item : AppItem) (role : Role), m.m_appItems[row]? = some item →
      data (search caseFold [] (search caseFold k m)) (some row) role =
        some (roleValue item role)) := by
  refine ⟨rfl, rfl, rfl, ?_, ?_⟩
  · unfold count rowCount
    rw [if_neg (by simp [search_mode])]
    rfl
  · intro row item role hrow
    unfold data
    simp only [search_mode, search_appItems, List.isEmpty_nil, if_true]
    rw [hrow]

/-- Witness for C12: row 2 of a three-item catalog after searching "F" and then
clearing the key. -/
theorem search_then_clear_witness :
    data (search Char.toLower [] (search Char.toLower "F".toList
      (sampleModel [sampleItem "Firefox", sampleItem "files", sampleItem "gimp"] false)))
      (some 2) .NameRole = some (roleValue (sampleItem "gimp") .NameRole) :=
  (search_then_clear Char.toLower "F".toList
    (sampleModel [sampleItem "Firefox", sampleItem "files", sampleItem "gimp"] false)).2.2.2.2
    2 (sampleItem "gimp") .NameRole (by decide)

theorem mem_ids_addApp_of_visible (env : Env) (desktop : DesktopProperties) (p : QString)
    (m : LauncherModel) (hvis : entryHidden env desktop = false) :
    p ∈ ids (addApp env desktop p m).m_appItems := by
  rcases findById_cases m p with ⟨hf, _⟩ | ⟨l1, x, l2, hl, hx, _, hf⟩
  · rw [addApp_of_absent env desktop p m hvis hf]
    split
    · simp [ids, newItem]
    · rw [delaySave_appItems]; simp [ids, newItem]
  · rw [addApp_of_present env desktop p m hvis l1 x l2 hl hf]
    simp [ids, updateItem, hx]

/-- C14: for every desktop entry that has an `OnlyShowIn` key and is not hidden
by `Terminal`, `NoDisplay` or `Hidden`, `addApp` hides the entry (returns with
the state unchanged) unless the upper-cased value of `XDG_CURRENT_DESKTOP`, or
the literal `UNKNOWN` when the variable is unset or empty, is equal to one of
the elements obtained by splitting the `OnlyShowIn` value on the semicolon; in
that case the path is in the catalog afterwards.  The scenario: `OnlyShowIn=GNOME;`
is hidden with `XDG_CURRENT_DESKTOP=Cutefish` and visible with
`XDG_CURRENT_DESKTOP=gnome`. -/
theorem onlyShowIn_guard :
    (∀ (env : Env) (desktop : DesktopProperties) (p : QString) (m : LauncherModel),
      desktop.contains keyOnlyShowIn = true →
      (desktop.contains keyTerminal && toBool (desktop.value keyTerminal)) = false →
      toBool (desktop.value keyNoDisplay) = false →
      toBool (desktop.value keyHidden) = false →
      (entryHidden env desktop = true ↔
        (if env.xdgCurrentDesktop = [] then "UNKNOWN".toList
          else toUpper env.xdgCurrentDesktop) ∉
          (desktop.value keyOnlyShowIn).splitOn semicolon) ∧
      (entryHidden env desktop = true → addApp env desktop p m = m) ∧
      (entryHidden env desktop = false → p ∈ ids (addApp env desktop p m).m_appItems)) ∧
    entryHidden { xdgCurrentDesktop := "Cutefish".toList, localeName := [] }
      (sampleEntry [("Name", "G"), ("OnlyShowIn", "GNOME;")]) = true ∧
    entryHidden { xdgCurrentDesktop := "gnome".toList, localeName := [] }
      (sampleEntry [("Name", "G"), ("OnlyShowIn", "GNOME;")]) = false := by
  refine ⟨?_, by decide, by decide⟩
  intro env desktop p m hos hterm hnd hhid
  refine ⟨?_, addApp_of_hidden env desktop p m, mem_ids_addApp_of_visible env desktop p m⟩
  have hdet : detectDesktopEnvironment env =
      (if env.xdgCurrentDesktop = [] then "UNKNOWN".toList
        else toUpper env.xdgCurrentDesktop) := by
    unfold detectDesktopEnvironment
    cases env.xdgCurrentDesktop <;> simp
  rw [← hdet]
  unfold entryHidden
  rw [hterm, hos, hnd, hhid]
  simp

/-- Witness for C14: an entry restricted to GNOME and KDE, read under `kde`. -/
theorem onlyShowIn_guard_witness :
    (sampleEntry [("Name", "G"), ("OnlyShowIn", "GNOME;KDE;")]).contains keyOnlyShowIn = true ∧
    "g".toList ∈ ids (addApp { xdgCurrentDesktop := "kde".toList, localeName := [] }
      (sampleEntry [("Name", "G"), ("OnlyShowIn", "GNOME;KDE;")]) "g".toList
      (sampleModel [] false)).m_appItems :=
  ⟨by decide,
    (onlyShowIn_guard.1 { xdgCurrentDesktop := "kde".toList, localeName := [] }
      (sampleEntry [("Name", "G"), ("OnlyShowIn", "GNOME;KDE;")]) "g".toList
      (sampleModel [] false) (by decide) (by decide) (by decide) (by decide)).2.2 (by decide)⟩

/-! ## C15, C16: launch -/

theorem findByIdFrom_first (id : QString) (l1 : List AppItem) (x : AppItem)
    (l2 : List AppItem) (i : Nat) (hx : x.id = id) (hne : ∀ y ∈ l1, y.id ≠ id) :
    findByIdFrom id (l1 ++ x :: l2) i = ((i + l1.length : Nat) : Int) := by
  induction l1 generalizing i with
  | nil => simp [findByIdFrom, hx]
  | cons a l1 ih =>
    have ha : a.id ≠ id := hne a (List.mem_cons_self _ _)
    have ih2 := ih (i + 1) (fun y hy => hne y (List.mem_cons_of_mem _ hy))
    show findByIdFrom id (a :: (l1 ++ x :: l2)) i = _
    simp only [findByIdFrom, ha, if_false]
    rw [ih2]
    simp only [List.length_cons]
    congr 1
    omega

theorem findById_first (m : LauncherModel) (id : QString) (l1 : List AppItem) (x : AppItem)
    (l2 : List AppItem) (hl : m.m_appItems = l1 ++ x :: l2) (hx : x.id = id)
    (hne : ∀ y ∈ l1, y.id ≠ id) : findById m id = (l1.length : Int) := by
  unfold findById
  rw [hl, findByIdFrom_first id l1 x l2 0 hx hne]
  simp

/-- C15: for every catalog and every id present in it whose item (the one
`findById` locates: the first with that id, the only one when ids are distinct)
has args `prog :: rest`, the spawn request `launch` builds has program `prog`
and argument list `rest`, except that when `prog` is `cutefish-screenshot` the
argument list is exactly `-d`, `200` whatever `rest` is; `applicationLaunched`
is emitted, the value returned is that of the spawn, and the state, with the
args of the item, is unchanged.  The scenario: args `cutefish-screenshot`,
`--region` spawn `cutefish-screenshot` with `-d`, `200`. -/
theorem launch_present :
    (∀ (startDetached : SpawnRequest → Bool) (m : LauncherModel) (l1 : List AppItem)
      (item : AppItem) (l2 : List AppItem) (id prog : QString) (rest : List QString),
      m.m_appItems = l1 ++ item :: l2 → item.id = id → (∀ y ∈ l1, y.id ≠ id) →
      item.args = prog :: rest →
      launch startDetached id m =
        some
          { result := startDetached
              { program := prog
                arguments := if prog = screenshotProgram then screenshotArguments else rest }
            spawned := some
              { program := prog
                arguments := if prog = screenshotProgram then screenshotArguments else rest }
            applicationLaunched := true
            model := m }) ∧
    (launch (fun _ => true) "s".toList
      (sampleModel
        [{ sampleItem "s" with args := ["cutefish-screenshot".toList, "--region".toList] }]
        false)).map LaunchOutcome.spawned =
      some (some { program := "cutefish-screenshot".toList,
                   arguments := ["-d".toList, "200".toList] }) := by
  refine ⟨?_, by decide⟩
  intro startDetached m l1 item l2 id prog rest hl hid hne hargs
  have hf := findById_first m id l1 item l2 hl hid hne
  unfold launch
  simp only [hf]
  rw [if_pos (by omega)]
  have hget : m.m_appItems[(l1.length : Int).toNat]? = some item := by
    rw [hl]
    exact getElem?_length_append l1 item l2 _ (by simp)
  rw [hget]
  simp only [hargs]
  by_cases hp : prog = screenshotProgram
  · simp [hp]
  · simp [hp]

/-- Witness for C15: the second item of a catalog, with one argument. -/
theorem launch_present_witness :
    launch (fun _ => true) "b".toList
      (sampleModel [sampleItem "a", { sampleItem "b" with args := ["b".toList, "-x".toList] }]
        false) =
      some
        { result := true
          spawned := some { program := "b".toList, arguments := ["-x".toList] }
          applicationLaunched := true
          model := sampleModel
            [sampleItem "a", { sampleItem "b" with args := ["b".toList, "-x".toList] }] false } :=
  launch_present.1 (fun _ => true)
    (sampleModel [sampleItem "a", { sampleItem "b" with args := ["b".toList, "-x".toList] }] false)
    [sampleItem "a"] { sampleItem "b" with args := ["b".toList, "-x".toList] } []
    "b".toList "b".toList ["-x".toList] (by decide) (by decide) (by decide) (by decide)

/-- C16: for every catalog and every id that is not the id of any item in it,
`launch` returns false, builds no spawn request, does not emit
`applicationLaunched`, and leaves the state, the catalog included, unchanged. -/
theorem launch_absent (startDetached : SpawnRequest → Bool) (path : QString)
    (m : LauncherModel) (h : path ∉ ids m.m_appItems) :
    launch startDetached path m =
      some { result := false, spawned := none, applicationLaunched := false, model := m } := by
  unfold launch
  simp [findById_of_not_mem m path h]

/-- Witness for C16: an id that is not in a two-item catalog. -/
theorem launch_absent_witness :
    "z".toList ∉ ids (sampleModel [sampleItem "a", sampleItem "b"] false).m_appItems ∧
    launch (fun _ => true) "z".toList (sampleModel [sampleItem "a", sampleItem "b"] false) =
      some { result := false, spawned := none, applicationLaunched := false,
             model := sampleModel [sampleItem "a", sampleItem "b"] false } :=
  ⟨by decide,
    launch_absent (fun _ => true) "z".toList (sampleModel [sampleItem "a", sampleItem "b"] false)
      (by decide)⟩

/-! ## C17: findById -/

/-- C17: for every catalog and every id, `findById` returns -1 if and only if
no item has that id; otherwise it returns the least index `i`, with
`0 ≤ i < length`, such that the item at `i` has that id. -/
theorem findById_spec (m : LauncherModel) (id : QString) :
    (findById m id = -1 ↔ id ∉ ids m.m_appItems) ∧
    (id ∈ ids m.m_appItems →
      ∃ i : Nat, findById m id = (i : Int) ∧ i < m.m_appItems.length ∧
        (m.m_appItems[i]?).map AppItem.id = some id ∧
        ∀ j, j < i → (m.m_appItems[j]?).map AppItem.id ≠ some id) := by
  rcases findById_cases m id with ⟨hf, hnot⟩ | ⟨l1, x, l2, hl, hx, hne, hf⟩
  · exact ⟨⟨fun _ => hnot, fun _ => hf⟩, fun hmem => absurd hmem hnot⟩
  · have hmem : id ∈ ids m.m_appItems := by
      simp only [ids, List.mem_map]
      exact ⟨x, by simp [hl], hx⟩
    refine ⟨⟨fun h => ?_, fun h => absurd hmem h⟩, fun _ => ⟨l1.length, hf, ?_, ?_, ?_⟩⟩
    · rw [hf] at h
      omega
    · rw [hl]; simp
    · rw [hl, getElem?_length_append l1 x l2 _ rfl]
      simp [hx]
    · intro j hj hcon
      rw [hl, List.getElem?_append_left hj] at hcon
      cases hy : l1[j]? with
      | none => rw [hy] at hcon; simp at hcon
      | some y =>
        rw [hy] at hcon
        simp at hcon
        exact hne y (List.getElem?_mem hy) hcon

/-- Witness for C17: "b" is found at index 1 of the catalog a, b, b. -/
theorem findById_spec_witness :
    "b".toList ∈ ids (sampleModel [sampleItem "a", sampleItem "b", sampleItem "b"] false).m_appItems ∧
    ∃ i : Nat, findById (sampleModel [sampleItem "a", sampleItem "b", sampleItem "b"] false)
      "b".toList = (i : Int) ∧ i < 3 :=
  ⟨by decide,
    let ⟨i, h1, h2, _⟩ := (findById_spec
      (sampleModel [sampleItem "a", sampleItem "b", sampleItem "b"] false) "b".toList).2
      (by decide)
    ⟨i, h1, h2⟩⟩


/-! ## Auxiliary facts: the sort flag and the effect of each slot on the items -/

theorem addApp_needSort (env : Env) (desktop : DesktopProperties) (p : QString)
    (m : LauncherModel) : (addApp env desktop p m).m_needSort = m.m_needSort := by
  cases hh : entryHidden env desktop with
  | true => rw [addApp_of_hidden env desktop p m hh]
  | false =>
    rcases findById_cases m p with ⟨hf, _⟩ | ⟨l1, x, l2, hl, _, _, hf⟩
    · rw [addApp_of_absent env desktop p m hh hf]
      split
      · rfl
      · rw [delaySave_needSort]
    · rw [addApp_of_present env desktop p m hh l1 x l2 hl hf]

theorem removeApp_needSort (p : QString) (m : LauncherModel) :
    (removeApp p m).m_needSort = m.m_needSort := by
  unfold removeApp
  simp only []
  split
  · rfl
  · rw [delaySave_needSort]

theorem listMove_perm {α : Type} (l : List α) (src dst : Nat) (hs : src < l.length)
    (hd : dst < l.length) : (listMove l src dst).Perm l := by
  by_cases h : src = dst
  · unfold listMove
    rw [if_pos h]
  · obtain ⟨_, _, _, _, hp⟩ := listMove_eq l src dst h hs hd
    exact hp

theorem move_cases (from_ to_ page pageCount : Int) (m r : LauncherModel)
    (h : move from_ to_ page pageCount m = some r) :
    r = m ∨ ∃ items, items.Perm m.m_appItems ∧ r = delaySave { m with m_appItems := items } := by
  unfold move at h
  by_cases he : from_ = to_
  · rw [if_pos he] at h
    left
    exact (Option.some.inj h).symm
  · rw [if_neg he] at h
    simp only [] at h
    unfold qlistMove at h
    split at h
    · rename_i items hq
      split at hq
      · rename_i hrange
        right
        refine ⟨items, ?_, (Option.some.inj h).symm⟩
        rw [← Option.some.inj hq]
        exact listMove_perm _ _ _ (by omega) (by omega)
      · exact absurd hq (by simp)
    · exact absurd h (by simp)

theorem move_needSort (from_ to_ page pageCount : Int) (m r : LauncherModel)
    (h : move from_ to_ page pageCount m = some r) : r.m_needSort = m.m_needSort := by
  rcases move_cases from_ to_ page pageCount m r h with rfl | ⟨items, _, rfl⟩
  · rfl
  · rw [delaySave_needSort]

theorem move_appItems_perm (from_ to_ page pageCount : Int) (m r : LauncherModel)
    (h : move from_ to_ page pageCount m = some r) : r.m_appItems.Perm m.m_appItems := by
  rcases move_cases from_ to_ page pageCount m r h with rfl | ⟨items, hp, rfl⟩
  · exact List.Perm.refl _
  · rw [delaySave_appItems]; exact hp

theorem onRefreshed_of_not_needSort (m : LauncherModel) (h : m.m_needSort = false) :
    onRefreshed m = m := by
  simp [onRefreshed, h]

theorem onRefreshed_needSort (m : LauncherModel) : (onRefreshed m).m_needSort = false := by
  cases h : m.m_needSort with
  | false => rw [onRefreshed_of_not_needSort m h]; exact h
  | true =>
    simp only [onRefreshed, h, Bool.not_true, Bool.false_eq_true, if_false]
    rw [delaySave_needSort]

theorem onRefreshed_appItems_perm (m : LauncherModel) :
    (onRefreshed m).m_appItems.Perm m.m_appItems := by
  cases h : m.m_needSort with
  | false => rw [onRefreshed_of_not_needSort m h]
  | true =>
    simp only [onRefreshed, h, Bool.not_true, Bool.false_eq_true, if_false]
    rw [delaySave_appItems]
    exact List.perm_insertionSort nameLe _

theorem nameLe_iff (a b : AppItem) : nameLe a b ↔ codeUnits a.name ≤ codeUnits b.name := by
  simp [nameLe, qstringLt]

theorem onRefreshed_sorted (m : LauncherModel) (h : m.m_needSort = true) :
    (onRefreshed m).m_appItems.Pairwise
      (fun a b => codeUnits a.name ≤ codeUnits b.name) := by
  simp only [onRefreshed, h, Bool.not_true, Bool.false_eq_true, if_false]
  rw [delaySave_appItems]
  have htotal : IsTotal AppItem nameLe :=
    ⟨fun a b => by
      rw [nameLe_iff, nameLe_iff]
      exact le_total _ _⟩
  have htrans : IsTrans AppItem nameLe :=
    ⟨fun a b c hab hbc => by
      rw [nameLe_iff] at hab hbc ⊢
      exact le_trans hab hbc⟩
  have hs : List.Sorted nameLe (List.insertionSort nameLe m.m_appItems) :=
    List.sorted_insertionSort nameLe m.m_appItems
  exact List.Pairwise.imp (fun hab => (nameLe_iff _ _).mp hab) hs

theorem stepOp_needSort_of_ne (env : Env) (m r : LauncherModel) (op : ModelOp)
    (hop : op ≠ .refreshed) (h : stepOp env m op = some r) : r.m_needSort = m.m_needSort := by
  cases op with
  | add desktop fileName =>
    rw [← Option.some.inj h]; exact addApp_needSort env desktop fileName m
  | remove fileName =>
    rw [← Option.some.inj h]; exact removeApp_needSort fileName m
  | move from_ to_ page pageCount => exact move_needSort from_ to_ page pageCount m r h
  | refreshed => exact absurd rfl hop

theorem stepOp_needSort_false (env : Env) (m r : LauncherModel) (op : ModelOp)
    (hm : m.m_needSort = false) (h : stepOp env m op = some r) : r.m_needSort = false := by
  by_cases hop : op = .refreshed
  · subst hop
    rw [← Option.some.inj h]
    exact onRefreshed_needSort m
  · rw [stepOp_needSort_of_ne env m r op hop h]; exact hm

theorem runOps_needSort_of_ne (env : Env) (ops : List ModelOp) (m r : LauncherModel)
    (hops : ∀ op ∈ ops, op ≠ ModelOp.refreshed) (h : runOps env ops m = some r) :
    r.m_needSort = m.m_needSort := by
  induction ops generalizing m with
  | nil => rw [← Option.some.inj h]
  | cons op rest ih =>
    simp only [runOps] at h
    cases hs : stepOp env m op with
    | none => rw [hs] at h; exact absurd h (by simp)
    | some m1 =>
      rw [hs] at h
      rw [ih m1 (fun o ho => hops o (List.mem_cons_of_mem _ ho)) h]
      exact stepOp_needSort_of_ne env m m1 op (hops op (List.mem_cons_self _ _)) hs

theorem runOps_needSort_false (env : Env) (ops : List ModelOp) (m r : LauncherModel)
    (hm : m.m_needSort = false) (h : runOps env ops m = some r) : r.m_needSort = false := by
  induction ops generalizing m with
  | nil => rw [← Option.some.inj h]; exact hm
  | cons op rest ih =>
    simp only [runOps] at h
    cases hs : stepOp env m op with
    | none => rw [hs] at h; exact absurd h (by simp)
    | some m1 =>
      rw [hs] at h
      exact ih m1 (stepOp_needSort_false env m m1 op hm hs) h

theorem runOps_append (env : Env) (ops1 ops2 : List ModelOp) (m : LauncherModel) :
    runOps env (ops1 ++ ops2) m = (runOps env ops1 m).bind (runOps env ops2) := by
  induction ops1 generalizing m with
  | nil => rfl
  | cons op rest ih =>
    simp only [List.cons_append, runOps]
    cases stepOp env m op with
    | none => rfl
    | some m1 => exact ih m1


/-! ## C13: the initial sort happens once -/

/-- C13: starting from a load that found an empty persisted catalog, so that
`needSort` is set, and for every sequence of `addApp`, `removeApp` and `move`
calls before it, the first `onRefreshed` makes the items a permutation of its
input in non-decreasing lexicographic order of the names and clears `needSort`;
every `onRefreshed` that comes after an earlier one, whatever calls lie between
and before, returns the state as it is: the items are unchanged and the save
timer is not restarted.  When the load found a non-empty catalog, every
`onRefreshed` returns the state as it is. -/
theorem onRefreshed_sorts_once (env : Env) :
    (∀ (calls : List ModelOp) (m1 : LauncherModel),
      (∀ op ∈ calls, op ≠ ModelOp.refreshed) → runOps env calls (load []) = some m1 →
      m1.m_needSort = true ∧
      (onRefreshed m1).m_appItems.Perm m1.m_appItems ∧
      (onRefreshed m1).m_appItems.Pairwise (fun a b => codeUnits a.name ≤ codeUnits b.name) ∧
      (onRefreshed m1).m_needSort = false) ∧
    (∀ (m0 : LauncherModel) (before after : List ModelOp) (mk : LauncherModel),
      runOps env (before ++ ModelOp.refreshed :: after) m0 = some mk → onRefreshed mk = mk) ∧
    (∀ (persisted : List AppItem) (calls : List ModelOp) (mk : LauncherModel),
      persisted ≠ [] → runOps env calls (load persisted) = some mk → onRefreshed mk = mk) := by
  refine ⟨?_, ?_, ?_⟩
  · intro calls m1 hcalls hrun
    have hns : m1.m_needSort = true := by
      rw [runOps_needSort_of_ne env calls (load []) m1 hcalls hrun]
      rfl
    exact ⟨hns, onRefreshed_appItems_perm m1, onRefreshed_sorted m1 hns,
      onRefreshed_needSort m1⟩
  · intro m0 before after mk hrun
    rw [runOps_append] at hrun
    cases h1 : runOps env before m0 with
    | none => rw [h1] at hrun; exact absurd hrun (by simp)
    | some m1 =>
      rw [h1] at hrun
      simp only [Option.bind, runOps, stepOp] at hrun
      exact onRefreshed_of_not_needSort mk
        (runOps_needSort_false env after (onRefreshed m1) mk (onRefreshed_needSort m1) hrun)
  · intro persisted calls mk hne hrun
    have h0 : (load persisted).m_needSort = false := by
      cases persisted with
      | nil => exact absurd rfl hne
      | cons a rest => rfl
    exact onRefreshed_of_not_needSort mk
      (runOps_needSort_false env calls (load persisted) mk h0 hrun)

/-- Witness for C13: a fresh start, two entries added out of order, then the
first refresh: the catalog comes out sorted by name. -/
theorem onRefreshed_sorts_once_witness :
    ∃ m1, runOps sampleEnv
        [.add (sampleEntry [("Name", "b"), ("Exec", "b")]) "b".toList,
         .add (sampleEntry [("Name", "a"), ("Exec", "a")]) "a".toList] (load []) = some m1 ∧
      (onRefreshed m1).m_appItems.Pairwise (fun a b => codeUnits a.name ≤ codeUnits b.name) ∧
      (onRefreshed m1).m_needSort = false :=
  ⟨_, rfl,
    ((onRefreshed_sorts_once sampleEnv).1
      [.add (sampleEntry [("Name", "b"), ("Exec", "b")]) "b".toList,
       .add (sampleEntry [("Name", "a"), ("Exec", "a")]) "a".toList] _
      (by decide) rfl).2.2⟩

/-! ## C20: safety of launch and of the update branch -/

theorem execArgs_ne_nil (exec : QString) : execArgs exec ≠ [] := by
  rw [execArgs_eq]
  split
  · simp
  · assumption

theorem argsNonempty_of_perm (l1 l2 : List AppItem) (hp : l1.Perm l2) (h : ArgsNonempty l2) :
    ArgsNonempty l1 :=
  fun item hitem => h item (hp.subset hitem)

theorem argsNonempty_addApp (env : Env) (desktop : DesktopProperties) (p : QString)
    (m : LauncherModel) (h : ArgsNonempty m.m_appItems) :
    ArgsNonempty (addApp env desktop p m).m_appItems := by
  cases hh : entryHidden env desktop with
  | true => rw [addApp_of_hidden env desktop p m hh]; exact h
  | false =>
    rcases findById_cases m p with ⟨hf, _⟩ | ⟨l1, x, l2, hl, _, _, hf⟩
    · have hi : (addApp env desktop p m).m_appItems =
          m.m_appItems ++ [newItem env desktop p] := by
        rw [addApp_of_absent env desktop p m hh hf]
        split
        · rfl
        · rw [delaySave_appItems]
      rw [hi]
      intro item hitem
      rcases List.mem_append.mp hitem with hin | hin
      · exact h item hin
      · rw [List.mem_singleton] at hin
        subst hin
        exact execArgs_ne_nil _
    · rw [addApp_of_present env desktop p m hh l1 x l2 hl hf]
      intro item hitem
      have hitem2 : item ∈ l1 ++ updateItem env desktop x :: l2 := hitem
      rw [hl] at h
      rcases List.mem_append.mp hitem2 with hin | hin
      · exact h item (List.mem_append_left _ hin)
      · rcases List.mem_cons.mp hin with hin | hin
        · subst hin
          exact execArgs_ne_nil _
        · exact h item (List.mem_append_right _ (List.mem_cons_of_mem _ hin))

theorem removeApp_appItems_sublist (p : QString) (m : LauncherModel) :
    (removeApp p m).m_appItems.Sublist m.m_appItems := by
  unfold removeApp
  simp only []
  split
  · exact List.Sublist.refl _
  · rw [delaySave_appItems]
    exact List.eraseIdx_sublist _ _

theorem argsNonempty_stepOp (env : Env) (m r : LauncherModel) (op : ModelOp)
    (h : ArgsNonempty m.m_appItems) (hs : stepOp env m op = some r) :
    ArgsNonempty r.m_appItems := by
  cases op with
  | add desktop fileName =>
    rw [← Option.some.inj hs]; exact argsNonempty_addApp env desktop fileName m h
  | remove fileName =>
    rw [← Option.some.inj hs]
    exact fun item hitem => h item ((removeApp_appItems_sublist fileName m).subset hitem)
  | move from_ to_ page pageCount =>
    exact argsNonempty_of_perm _ _ (move_appItems_perm from_ to_ page pageCount m r hs) h
  | refreshed =>
    rw [← Option.some.inj hs]
    exact argsNonempty_of_perm _ _ (onRefreshed_appItems_perm m) h

theorem argsNonempty_runOps (env : Env) (ops : List ModelOp) (m r : LauncherModel)
    (h : ArgsNonempty m.m_appItems) (hrun : runOps env ops m = some r) :
    ArgsNonempty r.m_appItems := by
  induction ops generalizing m with
  | nil => rw [← Option.some.inj hrun]; exact h
  | cons op rest ih =>
    simp only [runOps] at hrun
    cases hs : stepOp env m op with
    | none => rw [hs] at hrun; exact absurd hrun (by simp)
    | some m1 =>
      rw [hs] at hrun
      exact ih m1 (argsNonempty_stepOp env m m1 op h hs) hrun

theorem launch_isSome_of_argsNonempty (startDetached : SpawnRequest → Bool) (path : QString)
    (m : LauncherModel) (h : ArgsNonempty m.m_appItems) :
    ∃ outcome, launch startDetached path m = some outcome := by
  rcases findById_cases m path with ⟨hf, _⟩ | ⟨l1, x, l2, hl, _, _, hf⟩
  · refine ⟨{ result := false, spawned := none, applicationLaunched := false, model := m }, ?_⟩
    simp [launch, hf]
  · have hget : m.m_appItems[(l1.length : Int).toNat]? = some x := by
      rw [hl]
      exact getElem?_length_append l1 x l2 _ (by simp)
    have hx : x.args ≠ [] := h x (by rw [hl]; simp)
    unfold launch
    simp only [hf]
    rw [if_pos (by omega), hget]
    obtain ⟨cmd, args, hargs⟩ : ∃ cmd args, x.args = cmd :: args := by
      cases hargs : x.args with
      | nil => exact absurd hargs hx
      | cons cmd args => exact ⟨cmd, args, rfl⟩
    simp only [hargs]
    exact ⟨_, rfl⟩

theorem findById_lt_length (m : LauncherModel) (id : QString) (h0 : 0 ≤ findById m id) :
    findById m id < (m.m_appItems.length : Int) := by
  rcases findById_cases m id with ⟨hf, _⟩ | ⟨l1, x, l2, hl, _, _, hf⟩
  · rw [hf] at h0
    omega
  · rw [hf, hl]
    simp only [List.length_append, List.length_cons]
    omega

/-- C20: in every catalog reached from the empty catalog by `addApp`,
`removeApp`, `move` inside the catalog and `onRefreshed`, every item has at
least one token in its args, so `launch` never applies `takeFirst` to an empty
list and has a result for every id; and whenever the guard
`index >= 0 && index <= size` of `addApp` holds for the index `findById`
returns, that index is below `size`, so the update in place stays inside the
catalog. -/
theorem reachable_safe (env : Env) (startDetached : SpawnRequest → Bool)
    (ops : List ModelOp) (m0 r : LauncherModel) (h0 : m0.m_appItems = [])
    (hrun : runOps env ops m0 = some r) :
    (∀ item ∈ r.m_appItems, 1 ≤ item.args.length) ∧
    (∀ path, ∃ outcome, launch startDetached path r = some outcome) ∧
    (∀ id, 0 ≤ findById r id ∧ findById r id ≤ (r.m_appItems.length : Int) →
      findById r id < (r.m_appItems.length : Int)) := by
  have hinv : ArgsNonempty r.m_appItems :=
    argsNonempty_runOps env ops m0 r (by rw [h0]; exact fun _ hitem => absurd hitem (by simp)) hrun
  refine ⟨?_, fun path => launch_isSome_of_argsNonempty startDetached path r hinv, ?_⟩
  · intro item hitem
    exact List.length_pos.mpr (hinv item hitem)
  · intro id hid
    exact findById_lt_length r id hid.1

/-- Witness for C20: from the empty catalog, an entry without Exec and an
ordinary one are added, the two are swapped and the refresh signal arrives. -/
theorem reachable_safe_witness :
    ∃ r, runOps sampleEnv
        [.add (sampleEntry [("Name", "X")]) "x".toList,
         .add (sampleEntry [("Name", "A"), ("Exec", "a %U")]) "a".toList,
         .move 0 1 0 10, .refreshed] (load []) = some r ∧
      ∀ item ∈ r.m_appItems, 1 ≤ item.args.length :=
  ⟨_, rfl,
    (reachable_safe sampleEnv (fun _ => true)
      [.add (sampleEntry [("Name", "X")]) "x".toList,
       .add (sampleEntry [("Name", "A"), ("Exec", "a %U")]) "a".toList,
       .move 0 1 0 10, .refreshed] (load []) _ rfl rfl).1⟩


/-! ## C19: a second refresh changes nothing -/

theorem fresh_updateItem (env : Env) (fs : QString → DesktopProperties) (x : AppItem) :
    Fresh env fs (updateItem env (fs x.id) x) := rfl

theorem fresh_newItem (env : Env) (fs : QString → DesktopProperties) (p : QString) :
    Fresh env fs (newItem env (fs p) p) := rfl

theorem addApp_mem_cases (env : Env) (fs : QString → DesktopProperties) (q : QString)
    (m : LauncherModel) (hnd : (ids m.m_appItems).Nodup) :
    ∀ y ∈ (addApp env (fs q) q m).m_appItems,
      (y.id ≠ q ∧ y ∈ m.m_appItems) ∨
      (y.id = q ∧ (entryHidden env (fs q) = false → Fresh env fs y) ∧
        (entryHidden env (fs q) = true → y ∈ m.m_appItems)) := by
  intro y hy
  by_cases hyq : y.id = q
  · right
    cases hh : entryHidden env (fs q) with
    | true =>
      rw [addApp_of_hidden env (fs q) q m hh] at hy
      exact ⟨hyq, fun h => absurd h (by simp), fun _ => hy⟩
    | false =>
      refine ⟨hyq, fun _ => ?_, fun h => absurd h (by simp)⟩
      rcases findById_cases m q with ⟨hf, hnot⟩ | ⟨l1, x, l2, hl, hx, hne, hf⟩
      · have hi : (addApp env (fs q) q m).m_appItems =
            m.m_appItems ++ [newItem env (fs q) q] := by
          rw [addApp_of_absent env (fs q) q m hh hf]
          split
          · rfl
          · rw [delaySave_appItems]
        rw [hi] at hy
        rcases List.mem_append.mp hy with hin | hin
        · exact absurd (by rw [← hyq]; exact List.mem_map_of_mem AppItem.id hin) hnot
        · rw [List.mem_singleton] at hin
          rw [hin]
          exact fresh_newItem env fs q
      · rw [addApp_of_present env (fs q) q m hh l1 x l2 hl hf] at hy
        have hy2 : y ∈ l1 ++ updateItem env (fs q) x :: l2 := hy
        rw [hl] at hnd
        simp only [ids, List.map_append, List.map_cons] at hnd
        rw [List.nodup_append] at hnd
        obtain ⟨_, h2, _⟩ := hnd
        rw [List.nodup_cons] at h2
        rcases List.mem_append.mp hy2 with hin | hin
        · exact absurd hyq (hne y hin)
        · rcases List.mem_cons.mp hin with hin | hin
          · rw [hin]
            have := fresh_updateItem env fs x
            rw [hx] at this
            exact this
          · exfalso
            apply h2.1
            rw [hx, ← hyq]
            exact List.mem_map_of_mem AppItem.id hin
  · left
    refine ⟨hyq, ?_⟩
    cases hh : entryHidden env (fs q) with
    | true => rw [addApp_of_hidden env (fs q) q m hh] at hy; exact hy
    | false =>
      rcases findById_cases m q with ⟨hf, _⟩ | ⟨l1, x, l2, hl, hx, _, hf⟩
      · have hi : (addApp env (fs q) q m).m_appItems =
            m.m_appItems ++ [newItem env (fs q) q] := by
          rw [addApp_of_absent env (fs q) q m hh hf]
          split
          · rfl
          · rw [delaySave_appItems]
        rw [hi] at hy
        rcases List.mem_append.mp hy with hin | hin
        · exact hin
        · rw [List.mem_singleton] at hin
          exact absurd (by rw [hin]; rfl) hyq
      · rw [addApp_of_present env (fs q) q m hh l1 x l2 hl hf] at hy
        have hy2 : y ∈ l1 ++ updateItem env (fs q) x :: l2 := hy
        rw [hl]
        rcases List.mem_append.mp hy2 with hin | hin
        · exact List.mem_append_left _ hin
        · rcases List.mem_cons.mp hin with hin | hin
          · exact absurd (by rw [hin]; exact hx) hyq
          · exact List.mem_append_right _ (List.mem_cons_of_mem _ hin)

theorem addApp_mem_of_ne (env : Env) (desktop : DesktopProperties) (q : QString)
    (m : LauncherModel) (x : AppItem) (hx : x ∈ m.m_appItems) (hne : x.id ≠ q) :
    x ∈ (addApp env desktop q m).m_appItems := by
  cases hh : entryHidden env desktop with
  | true => rw [addApp_of_hidden env desktop q m hh]; exact hx
  | false =>
    rcases findById_cases m q with ⟨hf, _⟩ | ⟨l1, z, l2, hl, hz, _, hf⟩
    · rw [addApp_of_absent env desktop q m hh hf]
      split
      · exact List.mem_append_left _ hx
      · rw [delaySave_appItems]; exact List.mem_append_left _ hx
    · rw [addApp_of_present env desktop q m hh l1 z l2 hl hf]
      show x ∈ l1 ++ updateItem env desktop z :: l2
      rw [hl] at hx
      rcases List.mem_append.mp hx with hin | hin
      · exact List.mem_append_left _ hin
      · rcases List.mem_cons.mp hin with hin | hin
        · exact absurd (by rw [hin]; exact hz) hne
        · exact List.mem_append_right _ (List.mem_cons_of_mem _ hin)

theorem addApp_eq_self (env : Env) (desktop : DesktopProperties) (q : QString)
    (m : LauncherModel)
    (h : entryHidden env desktop = false →
      q ∈ ids m.m_appItems ∧ ∀ x ∈ m.m_appItems, x.id = q → updateItem env desktop x = x) :
    addApp env desktop q m = m := by
  cases hh : entryHidden env desktop with
  | true => exact addApp_of_hidden env desktop q m hh
  | false =>
    obtain ⟨hmem, hfresh⟩ := h hh
    rcases findById_cases m q with ⟨_, hnot⟩ | ⟨l1, x, l2, hl, hx, _, hf⟩
    · exact absurd hmem hnot
    · rw [addApp_of_present env desktop q m hh l1 x l2 hl hf]
      rw [hfresh x (by rw [hl]; simp) hx, ← hl]

theorem removeApp_not_mem (g : QString) (m : LauncherModel) (hnd : (ids m.m_appItems).Nodup) :
    g ∉ ids (removeApp g m).m_appItems := by
  rcases findById_cases m g with ⟨hf, hnot⟩ | ⟨l1, x, l2, hl, hx, _, hf⟩
  · rw [removeApp_of_absent g m hf]; exact hnot
  · rw [removeApp_of_present g m l1 x l2 hl hf, delaySave_appItems]
    rw [hl] at hnd
    simp only [ids, List.map_append, List.map_cons] at hnd ⊢
    rw [List.nodup_append] at hnd
    obtain ⟨_, h2, h3⟩ := hnd
    rw [List.nodup_cons] at h2
    intro hin
    rcases List.mem_append.mp hin with h | h
    · exact h3 h (by rw [hx]; exact List.mem_cons_self _ _)
    · exact h2.1 (by rw [hx]; exact h)

theorem removeApp_mem_of_ne (g : QString) (m : LauncherModel) (x : AppItem)
    (hx : x ∈ m.m_appItems) (hne : x.id ≠ g) : x ∈ (removeApp g m).m_appItems := by
  rcases findById_cases m g with ⟨hf, _⟩ | ⟨l1, z, l2, hl, hz, _, hf⟩
  · rw [removeApp_of_absent g m hf]; exact hx
  · rw [removeApp_of_present g m l1 z l2 hl hf, delaySave_appItems]
    show x ∈ l1 ++ l2
    rw [hl] at hx
    rcases List.mem_append.mp hx with hin | hin
    · exact List.mem_append_left _ hin
    · rcases List.mem_cons.mp hin with hin | hin
      · exact absurd (by rw [hin]; exact hz) hne
      · exact List.mem_append_right _ hin


theorem adds_invariant (env : Env) (fs : QString → DesktopProperties) (ps : List QString) :
    ∀ m : LauncherModel, (ids m.m_appItems).Nodup →
      (ids (ps.foldl (fun acc fileName => addApp env (fs fileName) fileName acc) m).m_appItems).Nodup ∧
      (∀ y ∈ (ps.foldl (fun acc fileName => addApp env (fs fileName) fileName acc) m).m_appItems,
        y ∈ m.m_appItems ∨ y.id ∈ ps) ∧
      (∀ y ∈ (ps.foldl (fun acc fileName => addApp env (fs fileName) fileName acc) m).m_appItems,
        y.id ∈ ps → entryHidden env (fs y.id) = false → Fresh env fs y) ∧
      (∀ p ∈ ps, entryHidden env (fs p) = false →
        p ∈ ids (ps.foldl (fun acc fileName => addApp env (fs fileName) fileName acc) m).m_appItems) ∧
      (∀ x ∈ m.m_appItems, x.id ∉ ps →
        x ∈ (ps.foldl (fun acc fileName => addApp env (fs fileName) fileName acc) m).m_appItems) := by
  induction ps with
  | nil =>
    intro m hnd
    refine ⟨hnd, fun y hy => Or.inl hy, fun y _ hin => absurd hin (by simp),
      fun p hp => absurd hp (by simp), fun x hx _ => hx⟩
  | cons q ps ih =>
    intro m hnd
    rw [List.foldl_cons]
    have hnd1 := ids_nodup_addApp env (fs q) q m hnd
    obtain ⟨i1, i2, i3, i4, i5⟩ := ih (addApp env (fs q) q m) hnd1
    refine ⟨i1, ?_, ?_, ?_, ?_⟩
    · intro y hy
      rcases i2 y hy with h | h
      · rcases addApp_mem_cases env fs q m hnd y h with ⟨_, hm⟩ | ⟨hq, _, _⟩
        · exact Or.inl hm
        · exact Or.inr (by rw [hq]; exact List.mem_cons_self _ _)
      · exact Or.inr (List.mem_cons_of_mem _ h)
    · intro y hy hin hvis
      by_cases hps : y.id ∈ ps
      · exact i3 y hy hps hvis
      · have hyq : y.id = q := by
          rcases List.mem_cons.mp hin with h | h
          · exact h
          · exact absurd h hps
        rcases i2 y hy with h | h
        · rcases addApp_mem_cases env fs q m hnd y h with ⟨hne, _⟩ | ⟨_, hf, _⟩
          · exact absurd hyq hne
          · exact hf (by rw [← hyq]; exact hvis)
        · exact absurd h hps
    · intro p hp hvis
      by_cases hps : p ∈ ps
      · exact i4 p hps hvis
      · have hpq : p = q := by
          rcases List.mem_cons.mp hp with h | h
          · exact h
          · exact absurd h hps
        subst hpq
        have hmem := mem_ids_addApp_of_visible env (fs p) p m hvis
        simp only [ids, List.mem_map] at hmem ⊢
        obtain ⟨x, hx, hxid⟩ := hmem
        exact ⟨x, i5 x hx (by rw [hxid]; exact hps), hxid⟩
    · intro x hx hnot
      have hne : x.id ≠ q := fun h => hnot (by rw [h]; exact List.mem_cons_self _ _)
      exact i5 x (addApp_mem_of_ne env (fs q) q m x hx hne)
        (fun h => hnot (List.mem_cons_of_mem _ h))

theorem removes_invariant (gs : List QString) :
    ∀ a : LauncherModel, (ids a.m_appItems).Nodup →
      (∀ y ∈ (gs.foldl (fun acc fileName => removeApp fileName acc) a).m_appItems,
        y ∈ a.m_appItems) ∧
      (∀ g ∈ gs, g ∉ ids (gs.foldl (fun acc fileName => removeApp fileName acc) a).m_appItems) ∧
      (∀ x ∈ a.m_appItems, x.id ∉ gs →
        x ∈ (gs.foldl (fun acc fileName => removeApp fileName acc) a).m_appItems) := by
  induction gs with
  | nil =>
    intro a _
    exact ⟨fun y hy => hy, fun g hg => absurd hg (by simp), fun x hx _ => hx⟩
  | cons g gs ih =>
    intro a hnd
    rw [List.foldl_cons]
    have hnd1 := ids_nodup_removeApp g a hnd
    obtain ⟨i1, i2, i3⟩ := ih (removeApp g a) hnd1
    refine ⟨?_, ?_, ?_⟩
    · intro y hy
      exact (removeApp_appItems_sublist g a).subset (i1 y hy)
    · intro g2 hg2
      by_cases hgs : g2 ∈ gs
      · exact i2 g2 hgs
      · have hgg : g2 = g := by
          rcases List.mem_cons.mp hg2 with h | h
          · exact h
          · exact absurd h hgs
        subst hgg
        intro hin
        simp only [ids, List.mem_map] at hin
        obtain ⟨y, hy, hyid⟩ := hin
        apply removeApp_not_mem g2 a hnd
        simp only [ids, List.mem_map]
        exact ⟨y, i1 y hy, hyid⟩
    · intro x hx hnot
      have hne : x.id ≠ g := fun h => hnot (by rw [h]; exact List.mem_cons_self _ _)
      exact i3 x (removeApp_mem_of_ne g a x hx hne) (fun h => hnot (List.mem_cons_of_mem _ h))

theorem refresh_settled (env : Env) (fs : QString → DesktopProperties)
    (allEntries : List QString) (m : LauncherModel) (hnd : (ids m.m_appItems).Nodup) :
    (∀ x ∈ (refresh env fs allEntries m).m_appItems, x.id ∈ allEntries) ∧
    (∀ x ∈ (refresh env fs allEntries m).m_appItems,
      entryHidden env (fs x.id) = false → Fresh env fs x) ∧
    (∀ p ∈ allEntries, entryHidden env (fs p) = false →
      p ∈ ids (refresh env fs allEntries m).m_appItems) ∧
    (refresh env fs allEntries m).m_needSort = false := by
  obtain ⟨a1, a2, a3, a4, _⟩ := adds_invariant env fs allEntries m hnd
  obtain ⟨r1, r2, r3⟩ := removes_invariant
    ((ids m.m_appItems).filter (fun id => !allEntries.contains id)) _ a1
  have hperm := onRefreshed_appItems_perm
    (((ids m.m_appItems).filter (fun id => !allEntries.contains id)).foldl
      (fun acc fileName => removeApp fileName acc)
      (allEntries.foldl (fun acc fileName => addApp env (fs fileName) fileName acc) m))
  have hJ1 : ∀ x ∈ (refresh env fs allEntries m).m_appItems, x.id ∈ allEntries := by
    intro x hx
    have hxr := hperm.subset hx
    rcases a2 x (r1 x hxr) with hm | hall
    · by_contra hnot
      have hgone : x.id ∈ (ids m.m_appItems).filter (fun id => !allEntries.contains id) := by
        rw [List.mem_filter]
        refine ⟨List.mem_map_of_mem AppItem.id hm, ?_⟩
        simpa using hnot
      exact r2 x.id hgone (List.mem_map_of_mem AppItem.id hxr)
    · exact hall
  refine ⟨hJ1, ?_, ?_, onRefreshed_needSort _⟩
  · intro x hx hvis
    exact a3 x (r1 x (hperm.subset hx)) (hJ1 x hx) hvis
  · intro p hp hvis
    have hmem := a4 p hp hvis
    simp only [ids, List.mem_map] at hmem ⊢
    obtain ⟨x, hx, hxid⟩ := hmem
    refine ⟨x, hperm.symm.subset (r3 x hx ?_), hxid⟩
    intro hgone
    rw [hxid, List.mem_filter] at hgone
    have := hgone.2
    simp [hp] at this

theorem foldl_addApp_eq_self (env : Env) (fs : QString → DesktopProperties)
    (ps : List QString) (m : LauncherModel)
    (h : ∀ q ∈ ps, addApp env (fs q) q m = m) :
    ps.foldl (fun acc fileName => addApp env (fs fileName) fileName acc) m = m := by
  induction ps with
  | nil => rfl
  | cons q ps ih =>
    rw [List.foldl_cons, h q (List.mem_cons_self _ _)]
    exact ih (fun q2 hq2 => h q2 (List.mem_cons_of_mem _ hq2))

theorem refresh_eq (env : Env) (fs : QString → DesktopProperties)
    (allEntries : List QString) (m : LauncherModel) :
    refresh env fs allEntries m =
      onRefreshed
        (((ids m.m_appItems).filter (fun id => !allEntries.contains id)).foldl
          (fun acc fileName => removeApp fileName acc)
          (allEntries.foldl (fun acc fileName => addApp env (fs fileName) fileName acc) m)) :=
  rfl

/-- C19: for every starting catalog with distinct ids and every fixed list of
discovered files with fixed entry contents, applying the message sequence of a
refresh (`addApp` for each discovered path, `removeApp` for each catalog id that
was not discovered, `onRefreshed`) a second time gives the state the first
application gave: the same items in the same order and the same `needSort`. -/
theorem refresh_twice (env : Env) (fs : QString → DesktopProperties)
    (allEntries : List QString) (m : LauncherModel) (hnd : (ids m.m_appItems).Nodup) :
    refresh env fs allEntries (refresh env fs allEntries m) = refresh env fs allEntries m ∧
    (refresh env fs allEntries (refresh env fs allEntries m)).m_appItems =
      (refresh env fs allEntries m).m_appItems ∧
    (refresh env fs allEntries (refresh env fs allEntries m)).m_needSort =
      (refresh env fs allEntries m).m_needSort := by
  obtain ⟨j1, j2, j3, j4⟩ := refresh_settled env fs allEntries m hnd
  have hadds : allEntries.foldl (fun acc fileName => addApp env (fs fileName) fileName acc)
      (refresh env fs allEntries m) = refresh env fs allEntries m := by
    apply foldl_addApp_eq_self
    intro q hq
    apply addApp_eq_self
    intro hvis
    refine ⟨j3 q hq hvis, ?_⟩
    intro x hx hxq
    have hfresh : updateItem env (fs x.id) x = x := j2 x hx (by rw [hxq]; exact hvis)
    rw [hxq] at hfresh
    exact hfresh
  have hgone : (ids (refresh env fs allEntries m).m_appItems).filter
      (fun id => !allEntries.contains id) = [] := by
    rw [List.filter_eq_nil_iff]
    intro id hid
    simp only [ids, List.mem_map] at hid
    obtain ⟨x, hx, hxid⟩ := hid
    have := j1 x hx
    rw [hxid] at this
    simp [this]
  have key : refresh env fs allEntries (refresh env fs allEntries m) =
      refresh env fs allEntries m := by
    rw [refresh_eq env fs allEntries (refresh env fs allEntries m), hadds, hgone,
      List.foldl_nil]
    exact onRefreshed_of_not_needSort _ j4
  exact ⟨key, by rw [key], by rw [key]⟩

/-- Witness for C19: a fresh start (sort pending) with one stale item, and a
directory with one hidden and one visible entry. -/
theorem refresh_twice_witness :
    (ids (sampleModel [sampleItem "z"] true).m_appItems).Nodup ∧
    (refresh sampleEnv sampleFs ["b".toList, "a".toList]
      (refresh sampleEnv sampleFs ["b".toList, "a".toList]
        (sampleModel [sampleItem "z"] true))).m_appItems =
      (refresh sampleEnv sampleFs ["b".toList, "a".toList]
        (sampleModel [sampleItem "z"] true)).m_appItems :=
  ⟨by decide,
    (refresh_twice sampleEnv sampleFs ["b".toList, "a".toList]
      (sampleModel [sampleItem "z"] true) (by decide)).2.1⟩

end Launcher
